import Mathlib

/-!
# Navigation tree admin: expand/collapse and drag-and-drop

A shallow embedding of `navigation-tree-admin.js`.

* The rendered table is the list of its `tr` elements in document order; a DOM
  element is identified by its position in that list.  The attributes and
  classes the script reads and writes are the fields of `Row`.  Every row is
  taken to carry the attributes `node`, `parent`, `level`, `children-num` and
  an `a.collapse` link, as the renderer emits them, and no other element of
  the document carries a `node` attribute; the ids of the rows are plain
  strings that can stand in a selector, and no other element shares one.
* The rest of the document is a parameter, `Document`: what the selector
  engine makes of `'#' + elementId` for a string that is the id of no row.
* The recursive walks over the table (`collapse`, `expand`, `collapse_all`,
  `expand_all`) take a fuel argument, the call depth allowed, and return
  `none` when it is used up.  The statements about them assume that the
  `parent` attributes form no cycle (`Acyclic`) and give a return value for
  every fuel above the rank of the starting node.
* `sessionStorage` maps a key to the stored text, kept as what `JSON.parse`
  makes of it: a rejected text, or a JSON value.
* The geometry of the page (`offset().top`, `height()`) is a parameter,
  `Layout`, that may depend on which rows are shown.  So is the arithmetic of
  the numbers the handlers compare (`Arith`): the sum, the half and the
  comparison are whatever the engine computes, and the statements about the
  pointer speak of the outcome of the handler's own tests.
* A drag is a `mousedown` on a handle, one `mousemove` event per pointer
  position, and a `mouseup` with the answer given to the prompt
  (`drag_session`).
-/

namespace NavTree

/-! ## Data model -/

/-- One rendered `tr`: its `id`, the `node`, `parent`, `level` and
`children-num` attributes, the two classes of its `a.collapse` link, and its
inline style (`display: none`, a background, the spacer width). -/
structure Row where
  id : String
  node : String
  parent : String
  level : Nat
  children_num : Nat
  collapsed : Bool
  expanded : Bool
  hidden : Bool
  background : Option String
  s_width : Option Int
  deriving DecidableEq, Repr

/-- The rows of the table, in document order. -/
abbrev Table := List Row

/-- What `JSON.parse` yields on a stored text.  Arrays are arrays of strings,
the only arrays the page writes. -/
inductive JSONValue where
  | null
  | bool (b : Bool)
  | number (n : Int)
  | string (s : String)
  | array (ids : List String)
  | object
  deriving DecidableEq, Repr

/-- A text held in session storage: one `JSON.parse` rejects, or the text of a
JSON value. -/
inductive StoredText where
  | invalid
  | json (v : JSONValue)
  deriving DecidableEq, Repr

/-- The browser's `sessionStorage`: `getItem` per key. -/
abbrev Storage := String → Option StoredText

/-- What a handler can raise: the `SyntaxError` of `JSON.parse`, a
`TypeError`, the error of the selector engine on an expression it cannot
read; `fuel` marks a walk cut short by the depth bound of the model. -/
inductive Err where
  | syntaxError
  | typeError
  | selectorError
  | fuel
  deriving DecidableEq, Repr

/-- The page: the table and the session storage. -/
structure Page where
  rows : Table
  session : Storage

/-- The object `new Node(elem)` builds: the element and the attributes read
when it is built. -/
structure Node where
  elem : Nat
  node_id : String
  parent_id : String
  level : Nat
  children_num : Nat
  deriving DecidableEq, Repr

/-- `new Node(elem)` for the element at position `e`. -/
def Node.new (t : Table) (e : Nat) : Option Node :=
  match t[e]? with
  | some r => some ⟨e, r.node, r.parent, r.level, r.children_num⟩
  | none => none

/-- The constant `EXPANDED_SESSION_KEY`. -/
def EXPANDED_SESSION_KEY : String := "expanded-"

/-- The field `expanded_key` of a node, for the table's `menuContentId`. -/
def expanded_key (menu_content_id : String) : String :=
  EXPANDED_SESSION_KEY ++ menu_content_id

/-! ## Row model -/

/-- Apply `f` to the elements whose position is listed in `is`. -/
def modifyAt (f : Row → Row) (is : List Nat) (t : Table) : Table :=
  t.enum.map fun p => if p.1 ∈ is then f p.2 else p.2

/-- `children()`: the elements matching `tr[parent=node_id]`, in document
order. -/
def children (t : Table) (node_id : String) : List Nat :=
  (List.range t.length).filter fun i =>
    match t[i]? with
    | some r => r.parent == node_id
    | none => false

/-- jQuery `.hide()` on a set of elements. -/
def hideRows (is : List Nat) (t : Table) : Table :=
  modifyAt (fun r => { r with hidden := true }) is t

/-- jQuery `.show()` on a set of elements. -/
def showRows (is : List Nat) (t : Table) : Table :=
  modifyAt (fun r => { r with hidden := false }) is t

/-- `find('a.collapse').removeClass('collapsed').addClass('expanded')`. -/
def markExpanded (r : Row) : Row := { r with collapsed := false, expanded := true }

/-- `find('a.collapse').removeClass('expanded').addClass('collapsed')`. -/
def markCollapsed (r : Row) : Row := { r with expanded := false, collapsed := true }

/-! ## Expand/collapse controller -/

/-- `collapse()` of the node with id `node_id`: collapse every child, then
hide the children. -/
def collapse : Nat → Table → String → Option Table
  | 0, _, _ => none
  | fuel + 1, t, node_id =>
    let cs := children t node_id
    (cs.foldlM (fun (t : Table) (c : Nat) =>
      match t[c]? with
      | some r => collapse fuel t r.node
      | none => some t) t).map (hideRows cs)

/-- `expand()` of the node with id `node_id`: re-expand every child whose
marker is `expanded`, then show the children. -/
def expand : Nat → Table → String → Option Table
  | 0, _, _ => none
  | fuel + 1, t, node_id =>
    let cs := children t node_id
    (cs.foldlM (fun (t : Table) (c : Nat) =>
      match t[c]? with
      | some r => if r.expanded then expand fuel t r.node else some t
      | none => some t) t).map (showRows cs)

/-- `collapse_all()` of the element `e`: set its marker, recurse into the
children, hide them, clear the session storage.  The result is `none` also
when `e` is no element of the table, which no reference taken from the table
is. -/
def collapse_all : Nat → Page → Nat → Option Page
  | 0, _, _ => none
  | fuel + 1, p, e =>
    match p.rows[e]? with
    | none => none
    | some r =>
      let p1 : Page := { p with rows := modifyAt markCollapsed [e] p.rows }
      let cs := children p1.rows r.node
      (cs.foldlM (fun (p : Page) (c : Nat) => collapse_all fuel p c) p1).map fun p2 =>
        { rows := hideRows cs p2.rows, session := fun _ => none }

/-- `expand_all()` of the element `e`: set its marker, recurse into the
children, show them, clear the session storage.  The result is `none` also
when `e` is no element of the table. -/
def expand_all : Nat → Page → Nat → Option Page
  | 0, _, _ => none
  | fuel + 1, p, e =>
    match p.rows[e]? with
    | none => none
    | some r =>
      let p1 : Page := { p with rows := modifyAt markExpanded [e] p.rows }
      let cs := children p1.rows r.node
      (cs.foldlM (fun (p : Page) (c : Nat) => expand_all fuel p c) p1).map fun p2 =>
        { rows := showRows cs p2.rows, session := fun _ => none }

/-! ## Persisted expansion set -/

/-- `JSON.parse(sessionStorage.getItem(key))`: an absent item is `null`, and
`JSON.parse(null)` is `null`. -/
def JSON_parse : Option StoredText → Except Err JSONValue
  | none => .ok .null
  | some .invalid => .error .syntaxError
  | some (.json v) => .ok v

/-- JavaScript truthiness of a parsed value. -/
def truthy : JSONValue → Bool
  | .null => false
  | .bool b => b
  | .number n => n != 0
  | .string s => s != ""
  | .array _ => true
  | .object => true

/-- `sessionStorage.setItem(key, JSON.stringify(expanded))`. -/
def setItem (s : Storage) (key : String) (expanded : List String) : Storage :=
  fun k => if k = key then some (.json (.array expanded)) else s k

/-- `JSON.parse(sessionStorage.getItem(key)) || []`, as the array the methods
go on to use: a truthy value without `push` and `filter` raises there. -/
def get_expanded (s : Storage) (key : String) : Except Err (List String) :=
  match JSON_parse (s key) with
  | .error e => .error e
  | .ok v =>
    if truthy v then
      match v with
      | .array ids => .ok ids
      | _ => .error .typeError
    else .ok []

/-- The `id` of the element `e` (`this.elem.id`). -/
def elem_id (t : Table) (e : Nat) : String :=
  match t[e]? with
  | some r => r.id
  | none => ""

/-- `is_collapsed()`. -/
def is_collapsed (t : Table) (n : Node) : Bool :=
  match t[n.elem]? with
  | some r => r.collapsed
  | none => false

/-- `is_expanded()`. -/
def is_expanded (t : Table) (n : Node) : Bool :=
  match t[n.elem]? with
  | some r => r.expanded
  | none => false

/-- `has_children()`: the rendered child count is positive. -/
def has_children (n : Node) : Bool := decide (0 < n.children_num)

/-- `add_to_session()`. -/
def add_to_session (key : String) (p : Page) (n : Node) : Except Err Page :=
  match get_expanded p.session key with
  | .error e => .error e
  | .ok expanded =>
    .ok { p with session := setItem p.session key (expanded ++ [elem_id p.rows n.elem]) }

/-- `remove_from_session()`: drop this element's id, then, when the node has
children, the id of each element of `children()`. -/
def remove_from_session (key : String) (p : Page) (n : Node) : Except Err Page :=
  match get_expanded p.session key with
  | .error e => .error e
  | .ok expanded =>
    let expanded := expanded.filter fun elementId => elementId != elem_id p.rows n.elem
    let expanded :=
      if has_children n then
        (children p.rows n.node_id).foldl
          (fun (acc : List String) (c : Nat) =>
            acc.filter fun elementId => elementId != elem_id p.rows c) expanded
      else expanded
    .ok { p with session := setItem p.session key expanded }

/-- `toggle()`. -/
def toggle (fuel : Nat) (key : String) (p : Page) (n : Node) : Except Err Page :=
  if is_collapsed p.rows n then
    match expand fuel p.rows n.node_id with
    | none => .error .fuel
    | some t => add_to_session key { p with rows := modifyAt markExpanded [n.elem] t } n
  else
    match collapse fuel p.rows n.node_id with
    | none => .error .fuel
    | some t => remove_from_session key { p with rows := modifyAt markCollapsed [n.elem] t } n

/-- The click handler of `a.collapse` on the row at position `e`. -/
def click_collapse (fuel : Nat) (menu_content_id : String) (p : Page) (e : Nat) :
    Except Err Page :=
  match Node.new p.rows e with
  | some n => toggle fuel (expanded_key menu_content_id) p n
  | none => .ok p

/-- The first row of the table whose `id` attribute is `elementId`. -/
def row_with_id (t : Table) (elementId : String) : Option Nat :=
  t.findIdx? fun r => r.id == elementId

/-- What `$.find(selector)[0]` gives: `undefined`, a row of the table, or an
element that is no row of the table, known by the rows whose `a.collapse`
link lies inside it. -/
inductive Found where
  | nothing
  | row (e : Nat)
  | element (links : List Nat)
  deriving DecidableEq, Repr

/-- The document around the rows, as the lookup `$.find('#' + elementId)[0]`
sees it: for a string that is the id of no row, the selector engine raises on
the expression `'#' + elementId`, or gives its first match in the whole
document. -/
abbrev Document := String → Except Err Found

/-- `$.find('#' + elementId)[0]`, a lookup in the whole document.  The id of a
row finds the first row with that id; for any other string the answer is the
document's. -/
def find_by_id (D : Document) (t : Table) (elementId : String) : Except Err Found :=
  match row_with_id t elementId with
  | some e => .ok (.row e)
  | none => D elementId

/-- The `node` attribute `new Node(elem)` reads from what the lookup found:
`undefined` unless it is a row. -/
def found_node_id (t : Table) : Found → String
  | .row e =>
    match t[e]? with
    | some r => r.node
    | none => "undefined"
  | _ => "undefined"

/-- The rows whose link `node.$elem.find('a.collapse')` selects. -/
def found_links : Found → List Nat
  | .nothing => []
  | .row e => [e]
  | .element links => links

/-- One round of the `forEach` of the page-load restoration: the lookup, which
may raise; `expand()` of the node built from what it found, whose children are
the rows matching `tr[parent=undefined]` when that is no row; and the marker
of every link inside what it found set to expanded. -/
def restore_one (D : Document) (fuel : Nat) (t : Table) (elementId : String) :
    Except Err Table :=
  match find_by_id D t elementId with
  | .error err => .error err
  | .ok found =>
    match expand fuel t (found_node_id t found) with
    | some t1 => .ok (modifyAt markExpanded (found_links found) t1)
    | none => .error .fuel

/-- The restoration run on `document.ready`. -/
def restore (D : Document) (fuel : Nat) (menu_content_id : String) (p : Page) :
    Except Err Page :=
  match JSON_parse (p.session (EXPANDED_SESSION_KEY ++ menu_content_id)) with
  | .error e => .error e
  | .ok expanded =>
    if truthy expanded then
      match expanded with
      | .array ids =>
        match ids.foldlM (restore_one D fuel) p.rows with
        | .ok t => .ok { p with rows := t }
        | .error e => .error e
      | _ => .error .typeError
    else .ok p

/-! ## Drag controller -/

/-- The constant `ACTIVE_NODE_BG_COLOR`. -/
def ACTIVE_NODE_BG_COLOR : String := "#B7D7E8"

/-- Handlers bound on `body`, counted per event; `selectstart` counts the
handlers in the `.ui-disableSelection` namespace. -/
structure Body where
  mousemove : Nat
  mouseup : Nat
  keyup : Nat
  selectstart : Nat
  deriving DecidableEq, Repr

/-- The page during a drag: the table, the handlers on `body`, and whether
the `#ghost` and `#drag_line` elements are attached. -/
structure UI where
  rows : Table
  body : Body
  ghost : Bool
  drag_line : Bool
  deriving DecidableEq, Repr

/-- The variables of one drag: the dragged node, `$targetRow` and
`as_child`. -/
structure Drag where
  node : Node
  targetRow : Option Nat
  as_child : Bool
  deriving DecidableEq, Repr

/-- The form fields of the move request. -/
structure MoveRequest where
  node_id : String
  parent_id : String
  sibling_id : String
  as_child : Nat
  deriving DecidableEq, Repr

/-- The geometry the browser reports for the current state of the table:
`offset().top` and `height()` of the element at a position, as numbers of the
engine. -/
structure Layout (F : Type) where
  top : Table → Nat → F
  height : Table → Nat → F

/-- The arithmetic of the engine on its numbers: `a + b`, `a / 2` and
`a <= b` (`a >= b` being `b <= a`). -/
structure Arith (F : Type) where
  add : F → F → F
  half : F → F
  le : F → F → Bool

/-- The `mousedown` handler of a drag handle in the row at position `e`. -/
def mousedown (ui : UI) (e : Nat) : Option (UI × Drag) :=
  match Node.new ui.rows e with
  | none => none
  | some node =>
    some ({ rows := modifyAt (fun r => { r with background := some ACTIVE_NODE_BG_COLOR })
                      [e] ui.rows,
            body := { ui.body with
                      selectstart := ui.body.selectstart + 1,
                      mousemove := ui.body.mousemove + 1,
                      mouseup := ui.body.mouseup + 1,
                      keyup := ui.body.keyup + 1 },
            ghost := true,
            drag_line := true },
          { node := node, targetRow := none, as_child := false })

/-- The function `stop_drag`: remove the ghost and the drag line, re-enable
selection, unbind `mousemove` and `mouseup`, remove the `style` attribute of
the dragged row. -/
def stop_drag (ui : UI) (node : Node) : UI :=
  { rows := modifyAt (fun r => { r with hidden := false, background := none })
              [node.elem] ui.rows,
    body := { ui.body with selectstart := 0, mousemove := 0, mouseup := 0 },
    ghost := false,
    drag_line := false }

/-- The test `pageY >= node_top && pageY <= node_top + rowHeight`, with
`node_top` the top of the dragged row in the table `t`. -/
def over_same_node {F : Type} (A : Arith F) (L : Layout F) (t : Table) (rowHeight pageY : F)
    (node : Node) : Bool :=
  A.le (L.top t node.elem) pageY && A.le pageY (A.add (L.top t node.elem) rowHeight)

/-- The test `pageY >= rtop && pageY <= rtop + rowHeight / 2`, with `rtop` the
top of the row at position `i` in the table `t`. -/
def over_top_half {F : Type} (A : Arith F) (L : Layout F) (t : Table) (rowHeight pageY : F)
    (i : Nat) : Bool :=
  A.le (L.top t i) pageY && A.le pageY (A.add (L.top t i) (A.half rowHeight))

/-- The test `pageY >= rtop + rowHeight / 2 && pageY <= rtop + rowHeight`. -/
def over_bottom_half {F : Type} (A : Arith F) (L : Layout F) (t : Table) (rowHeight pageY : F)
    (i : Nat) : Bool :=
  A.le (A.add (L.top t i) (A.half rowHeight)) pageY && A.le pageY (A.add (L.top t i) rowHeight)

/-- The body of the `each` of the `mousemove` handler, for the row at
position `i`: the three tests in the order of the `if`/`else if` chain, on
the table as it stands when the row is visited. -/
def mousemove_row {F : Type} (A : Arith F) (fuel : Nat) (L : Layout F) (pageY rowHeight : F)
    (node : Node) (s : Table × Option Nat × Bool) (i : Nat) :
    Option (Table × Option Nat × Bool) :=
  if over_same_node A L s.1 rowHeight pageY node then
    some (s.1, none, s.2.2)
  else if over_top_half A L s.1 rowHeight pageY i then
    some (s.1, some i, false)
  else if over_bottom_half A L s.1 rowHeight pageY i then
    match Node.new s.1 i with
    | none => none
    | some target_node =>
      if is_collapsed s.1 target_node then
        (expand fuel s.1 target_node.node_id).map fun t => (t, some i, true)
      else some (s.1, some i, true)
  else some s

/-- The `mousemove` handler: every row of the table is visited in document
order, with the height of the dragged row read once. -/
def mousemove {F : Type} (A : Arith F) (fuel : Nat) (L : Layout F) (pageY : F) (t : Table)
    (d : Drag) : Option (Table × Drag) :=
  let rowHeight := L.height t d.node.elem
  ((List.range t.length).foldlM (mousemove_row A fuel L pageY rowHeight d.node)
      (t, d.targetRow, d.as_child)).map fun s =>
    (s.1, { d with targetRow := s.2.1, as_child := s.2.2 })

/-- The request the `mouseup` handler sends, if it sends one, with the target
node it was built from; `confirmMove` is the answer to the prompt. -/
def mouseup_request (t : Table) (d : Drag) (confirmMove : Bool) :
    Option (MoveRequest × Node) :=
  match d.targetRow with
  | none => none
  | some j =>
    if confirmMove then
      match Node.new t j with
      | none => none
      | some target_node =>
        if target_node.node_id ≠ d.node.node_id then
          some ({ node_id := d.node.node_id,
                  parent_id := target_node.parent_id,
                  sibling_id := target_node.node_id,
                  as_child := if d.as_child then 1 else 0 }, target_node)
        else none
    else none

/-- The `mouseup` handler: the request, if any, and the page after
`stop_drag`. -/
def mouseup (ui : UI) (d : Drag) (confirmMove : Bool) : UI × Option (MoveRequest × Node) :=
  (stop_drag ui d.node, mouseup_request ui.rows d confirmMove)

/-- The `keyup` handler: Escape stops the drag. -/
def keyup (ui : UI) (d : Drag) (keyCode : Nat) : UI :=
  if keyCode = 27 then stop_drag ui d.node else ui

/-! ## Move reconciler -/

/-- Move the element at position `i` to just after the element at position
`j` (`insertAfter`). -/
def insertAfter (t : Table) (i j : Nat) : Table :=
  match t[i]? with
  | none => t
  | some a => (t.eraseIdx i).insertIdx ((if i < j then j - 1 else j) + 1) a

/-- Move the element at position `i` to just before the element at position
`j` (`insertBefore`). -/
def insertBefore (t : Table) (i j : Nat) : Table :=
  match t[i]? with
  | none => t
  | some a => (t.eraseIdx i).insertIdx (if i < j then j - 1 else j) a

/-- Set the `parent` and `level` attributes of the moved row and the
`--s-width` of its spacer to `level - 1`. -/
def patch_moved (parent_id : String) (level : Nat) (r : Row) : Row :=
  { r with parent := parent_id, level := level, s_width := some ((level : Int) - 1) }

/-- The `success` callback of the move request: the level is read from the
target element, the parent is taken from the target node. -/
def move_success (t : Table) (node target_node : Node) (as_child : Bool) : Table :=
  match t[target_node.elem]? with
  | none => t
  | some target =>
    let level := target.level + (if as_child then 1 else 0)
    let parent_id := if as_child then target_node.node_id else target_node.parent_id
    let t1 := modifyAt (patch_moved parent_id level) [node.elem] t
    if as_child then insertAfter t1 node.elem target_node.elem
    else insertBefore t1 node.elem target_node.elem

/-! ## Vocabulary of the statements -/

/-- The element at position `i` is reached from the node id `x` by going
down through children, passing only through rows that `go` accepts. -/
inductive Reach (go : Row → Bool) (t : Table) : String → Nat → Prop where
  | child {x : String} {i : Nat} {r : Row} :
      t[i]? = some r → r.parent = x → Reach go t x i
  | step {x : String} {c i : Nat} {rc : Row} :
      t[c]? = some rc → rc.parent = x → go rc = true → Reach go t rc.node i →
      Reach go t x i

/-- The element at position `i` is a transitive descendant of the node
`x`. -/
def Descendant (t : Table) (x : String) (i : Nat) : Prop :=
  Reach (fun _ => true) t x i

/-- The element at position `i` is a descendant of the node `x` and every
row strictly between them carries the `expanded` class. -/
def Revealed (t : Table) (x : String) (i : Nat) : Prop :=
  Reach (fun r => r.expanded) t x i

/-- The `parent` attributes form no cycle: `rk` decreases from a row's
parent id to the row's own id. -/
def Acyclic (rk : String → Nat) (t : Table) : Prop :=
  ∀ r ∈ t, rk r.node < rk r.parent

/-- The row has the `expanded` class and not the `collapsed` class. -/
def MarkedExpanded (r : Row) : Prop := r.expanded = true ∧ r.collapsed = false

/-- The row has the `collapsed` class and not the `expanded` class. -/
def MarkedCollapsed (r : Row) : Prop := r.collapsed = true ∧ r.expanded = false

/-- The walk that `collapse` and `expand` share: descend into the children
that `go` accepts, then apply `f` to the children. -/
def walk (go : Row → Bool) (f : Row → Row) : Nat → Table → String → Option Table
  | 0, _, _ => none
  | fuel + 1, t, node_id =>
    let cs := children t node_id
    (cs.foldlM (fun (t : Table) (c : Nat) =>
      match t[c]? with
      | some r => if go r then walk go f fuel t r.node else some t
      | none => some t) t).map (modifyAt f cs)

/-- The walk that `collapse_all` and `expand_all` share. -/
def walk_all (mark f : Row → Row) : Nat → Page → Nat → Option Page
  | 0, _, _ => none
  | fuel + 1, p, e =>
    match p.rows[e]? with
    | none => none
    | some r =>
      let p1 : Page := { p with rows := modifyAt mark [e] p.rows }
      let cs := children p1.rows r.node
      (cs.foldlM (fun (p : Page) (c : Nat) => walk_all mark f fuel p c) p1).map fun p2 =>
        { rows := modifyAt f cs p2.rows, session := fun _ => none }

/-- Two tables with the same rows up to the fields that neither `node`,
`parent` nor `go` reads. -/
def Skel (go : Row → Bool) (t t' : Table) : Prop :=
  t'.length = t.length ∧
  ∀ (i : Nat) (r : Row), t[i]? = some r →
    ∃ r', t'[i]? = some r' ∧ r'.node = r.node ∧ r'.parent = r.parent ∧ go r' = go r

/-- The element at position `i` is reached through one of the listed children
that `go` accepts. -/
def Via (go : Row → Bool) (t : Table) (done : List Nat) (i : Nat) : Prop :=
  ∃ c ∈ done, ∃ rc, t[c]? = some rc ∧ go rc = true ∧ Reach go t rc.node i

/-- The table `t'` is `t` with `f` applied to the elements that satisfy `S`
and to no other. -/
def AppliedOn (f : Row → Row) (S : Nat → Prop) (t t' : Table) : Prop :=
  t'.length = t.length ∧
  ∀ (i : Nat) (r : Row), t[i]? = some r →
    (S i → t'[i]? = some (f r)) ∧ (¬ S i → t'[i]? = some r)

/-- The table `t'` has the rows of `t` with the same `node` and `parent`,
and a row that satisfied `M` or `V` still does. -/
def Mono (M V : Row → Prop) (t t' : Table) : Prop :=
  t'.length = t.length ∧
  ∀ (i : Nat) (r : Row), t[i]? = some r →
    ∃ r', t'[i]? = some r' ∧ r'.node = r.node ∧ r'.parent = r.parent ∧
      (M r → M r') ∧ (V r → V r')

/-! ## Scenarios -/

/-- A row with the given id (also its `node` attribute), parent and level,
collapsed and shown. -/
def mkRow (id parent : String) (level children_num : Nat) : Row :=
  { id := id, node := id, parent := parent, level := level, children_num := children_num,
    collapsed := true, expanded := false, hidden := false, background := none,
    s_width := none }

/-- The table of the move scenario: the root `n2` with the children `n5` and
`n7`, both at level 2. -/
def moveTable : Table :=
  [mkRow "n2" "" 1 2, mkRow "n5" "n2" 2 0, mkRow "n7" "n2" 2 0]

/-- The drag of `n5` released on the bottom half of `n7`. -/
def moveDrag : Drag :=
  { node := ⟨1, "n5", "n2", 2, 0⟩, targetRow := some 2, as_child := true }

/-- The page of the move scenario during the drag. -/
def moveUI : UI :=
  { rows := moveTable, body := ⟨1, 1, 1, 1⟩, ghost := true, drag_line := true }

/-- The chain `n1 > n2 > n3 > n4` as rendered on a first page load: every
marker collapsed, the root shown, the other rows hidden. -/
def chainTable : Table :=
  [mkRow "n1" "" 1 1,
   { mkRow "n2" "n1" 2 1 with hidden := true },
   { mkRow "n3" "n2" 3 1 with hidden := true },
   { mkRow "n4" "n3" 4 0 with hidden := true }]

/-- The first page load of the chain: nothing stored. -/
def chainPage : Page := { rows := chainTable, session := fun _ => none }

/-- The chain with `n1`, `n2` and `n3` expanded, every row shown, and the
three ids stored for the menu `7`. -/
def openPage : Page :=
  { rows := [markExpanded (mkRow "n1" "" 1 1), markExpanded (mkRow "n2" "n1" 2 1),
             markExpanded (mkRow "n3" "n2" 3 1), mkRow "n4" "n3" 4 0],
    session := setItem (fun _ => none) (expanded_key "7") ["n1", "n2", "n3"] }

/-- A rank for the chain: the depth left below a node id. -/
def chainRank (s : String) : Nat :=
  if s = "" then 4 else if s = "n1" then 3 else if s = "n2" then 2
  else if s = "n3" then 1 else 0

/-- A page before any drag: no handler on `body`, no ghost, no drag line. -/
def idleUI : UI :=
  { rows := moveTable, body := ⟨0, 0, 0, 0⟩, ghost := false, drag_line := false }

/-- Exact arithmetic on rationals.  On the whole numbers of pixels of the
scenarios and their halves the sums, halves and comparisons of the engine are
exact, so they are these. -/
def exactArith : Arith ℚ :=
  { add := fun a b => a + b, half := fun a => a / 2, le := fun a b => decide (a ≤ b) }

/-- Rows 20 pixels high stacked from 100 pixels down, a hidden row taking no
room and reporting the offset 0. -/
def stackLayout : Layout ℚ :=
  { top := fun t j =>
      match t[j]? with
      | some r =>
        if r.hidden then 0
        else 100 + 20 * (((t.take j).filter fun r => !r.hidden).length : ℚ)
      | none => 0,
    height := fun _ _ => 20 }

/-- A document around a table of `n` rows: the table element has the id
`result_list` and holds every row, the selector `'#'` of the empty id is
rejected, and no other string names an element. -/
def adminDocument (n : Nat) : Document := fun elementId =>
  if elementId = "" then .error .selectorError
  else if elementId = "result_list" then .ok (.element (List.range n))
  else .ok .nothing

/-- A root `n1` with the children `n2`, `n3` and `n4`, all shown, every
marker expanded. -/
def flatTable : Table :=
  [markExpanded (mkRow "n1" "" 1 3), markExpanded (mkRow "n2" "n1" 2 0),
   markExpanded (mkRow "n3" "n1" 2 0), markExpanded (mkRow "n4" "n1" 2 0)]

/-- A root `n1` with the children `n2` (collapsed, its child `n3` hidden) and
`n4`. -/
def nestedTable : Table :=
  [mkRow "n1" "" 1 2, mkRow "n2" "n1" 2 1, { mkRow "n3" "n2" 3 0 with hidden := true },
   mkRow "n4" "n1" 2 0]

/-- The drag of the row `n4` (position 3), just started. -/
def dragN4 : Drag :=
  { node := ⟨3, "n4", "n1", 2, 0⟩, targetRow := none, as_child := false }

/-- The table `t'` has the rows of `t`, each with every field but `hidden`
as it was. -/
def SameButHidden (t t' : Table) : Prop :=
  t'.length = t.length ∧
  ∀ (i : Nat) (r : Row), t[i]? = some r →
    ∃ r', t'[i]? = some r' ∧ r' = { r with hidden := r'.hidden }

/-- The first page load of the chain with a text stored for the menu `7`. -/
def storedPage (v : StoredText) : Page :=
  { rows := chainTable, session := fun k => if k = expanded_key "7" then some v else none }

/-- The table `t'` has the rows of `t` with the same `id`, `node` and
`parent`; a row that had the expanded marker or was shown in `t` is so in
`t'`. -/
def Grown (t t' : Table) : Prop :=
  t'.length = t.length ∧
  ∀ (i : Nat) (r : Row), t[i]? = some r →
    ∃ r', t'[i]? = some r' ∧ r'.id = r.id ∧ r'.node = r.node ∧ r'.parent = r.parent ∧
      (MarkedExpanded r → MarkedExpanded r') ∧ (r.hidden = false → r'.hidden = false)

/-- The root `n2` with the children `n5` and `n7`, and `n8` under `n5`, as
rendered on a page load: every marker collapsed, only the root shown. -/
def restoreTable : Table :=
  [mkRow "n2" "" 1 2,
   { mkRow "n5" "n2" 2 1 with hidden := true },
   { mkRow "n7" "n2" 2 0 with hidden := true },
   { mkRow "n8" "n5" 3 0 with hidden := true }]

/-- The page load of `restoreTable` with `n2` and `n5` stored for the menu
`7`. -/
def restorePage : Page :=
  { rows := restoreTable,
    session := fun k => if k = expanded_key "7" then some (.json (.array ["n2", "n5"])) else none }

/-- A rank for `restoreTable`. -/
def restoreRank (s : String) : Nat :=
  if s = "" then 3 else if s = "n2" then 2 else if s = "n5" then 1 else 0

/-- The pointer moves of a drag: one `mousemove` event per position, in
order. -/
def drag_moves {F : Type} (A : Arith F) (fuel : Nat) (L : Layout F) :
    List F → Table → Drag → Option (Table × Drag)
  | [], t, d => some (t, d)
  | pageY :: rest, t, d =>
    match mousemove A fuel L pageY t d with
    | none => none
    | some (t1, d1) => drag_moves A fuel L rest t1 d1

/-- A whole drag: `mousedown` on the handle of the row at position `e`, the
pointer moves, then `mouseup` with the prompt answered `confirmMove`.  The
result is the page after `stop_drag` and the request, if one is sent. -/
def drag_session {F : Type} (A : Arith F) (fuel : Nat) (L : Layout F) (ui : UI) (e : Nat)
    (moves : List F) (confirmMove : Bool) : Option (UI × Option (MoveRequest × Node)) :=
  match mousedown ui e with
  | none => none
  | some (ui1, d) =>
    match drag_moves A fuel L moves ui1.rows d with
    | none => none
    | some (t, d1) => some (mouseup { ui1 with rows := t } d1 confirmMove)

/-- The table `t'` has the rows of `t`, each with every field but `hidden`
and `background` as it was, and a row shown in `t` is shown in `t'`. -/
def DragKept (t t' : Table) : Prop :=
  t'.length = t.length ∧
  ∀ (i : Nat) (r : Row), t[i]? = some r →
    ∃ r', t'[i]? = some r' ∧
      r' = { r with hidden := r'.hidden, background := r'.background } ∧
      (r.hidden = false → r'.hidden = false)

/-- The page with `nestedTable` before any drag. -/
def nestedUI : UI :=
  { rows := nestedTable, body := ⟨0, 0, 0, 0⟩, ghost := false, drag_line := false }

/-- The rows of `nestedTable` while `n4` is dragged. -/
def nestedDragging : Table :=
  [mkRow "n1" "" 1 2, mkRow "n2" "n1" 2 1, { mkRow "n3" "n2" 3 0 with hidden := true },
   { mkRow "n4" "n1" 2 0 with background := some ACTIVE_NODE_BG_COLOR }]

/-- The rows of `nestedDragging` once `n3` is shown. -/
def nestedRevealed : Table :=
  [mkRow "n1" "" 1 2, mkRow "n2" "n1" 2 1, mkRow "n3" "n2" 3 0,
   { mkRow "n4" "n1" 2 0 with background := some ACTIVE_NODE_BG_COLOR }]

/-- The chain with `n1`, `n2`, `n3` expanded and lists stored for two trees,
the menus `7` and `8`. -/
def twoMenusPage : Page :=
  { rows := openPage.rows,
    session := setItem (setItem (fun _ => none) (expanded_key "7") ["n1", "n2", "n3"])
      (expanded_key "8") ["m1"] }

/-! ## Basic facts -/

theorem getElem?_modifyAt (f : Row → Row) (is : List Nat) (t : Table) (i : Nat) :
    (modifyAt f is t)[i]? = t[i]?.map fun r => if i ∈ is then f r else r := by
  unfold modifyAt
  rw [List.getElem?_map, List.getElem?_enum]
  cases t[i]? <;> simp

theorem length_modifyAt (f : Row → Row) (is : List Nat) (t : Table) :
    (modifyAt f is t).length = t.length := by
  simp [modifyAt]

theorem mem_children {t : Table} {x : String} {i : Nat} :
    i ∈ children t x ↔ ∃ r, t[i]? = some r ∧ r.parent = x := by
  unfold children
  rw [List.mem_filter, List.mem_range]
  constructor
  · rintro ⟨hi, h⟩
    cases hr : t[i]? with
    | none => rw [hr] at h; simp at h
    | some r => rw [hr] at h; exact ⟨r, rfl, by simpa using h⟩
  · rintro ⟨r, hr, hp⟩
    refine ⟨?_, ?_⟩
    · exact (List.getElem?_eq_some.1 hr).1
    · rw [hr]; simpa using hp

theorem collapse_eq_walk (fuel : Nat) (t : Table) (x : String) :
    collapse fuel t x = walk (fun _ => true) (fun r => { r with hidden := true }) fuel t x := by
  induction fuel generalizing t x with
  | zero => rfl
  | succ n ih => simp only [collapse, walk, ih, if_true]; rfl

theorem expand_eq_walk (fuel : Nat) (t : Table) (x : String) :
    expand fuel t x = walk (fun r => r.expanded) (fun r => { r with hidden := false }) fuel t x := by
  induction fuel generalizing t x with
  | zero => rfl
  | succ n ih => simp only [expand, walk, ih]; rfl

theorem collapse_all_eq_walk_all (fuel : Nat) (p : Page) (e : Nat) :
    collapse_all fuel p e = walk_all markCollapsed (fun r => { r with hidden := true }) fuel p e := by
  induction fuel generalizing p e with
  | zero => rfl
  | succ n ih => simp only [collapse_all, walk_all, ih]; rfl

theorem expand_all_eq_walk_all (fuel : Nat) (p : Page) (e : Nat) :
    expand_all fuel p e = walk_all markExpanded (fun r => { r with hidden := false }) fuel p e := by
  induction fuel generalizing p e with
  | zero => rfl
  | succ n ih => simp only [expand_all, walk_all, ih]; rfl

/-! ## Tables that differ in fields the walks do not read -/

theorem skel_refl (go : Row → Bool) (t : Table) : Skel go t t :=
  ⟨rfl, fun _ r h => ⟨r, h, rfl, rfl, rfl⟩⟩

theorem skel_symm {go : Row → Bool} {t t' : Table} (h : Skel go t t') : Skel go t' t := by
  refine ⟨h.1.symm, fun i r' hr' => ?_⟩
  have hi : i < t.length := by
    have := (List.getElem?_eq_some.1 hr').1
    rw [h.1] at this; exact this
  obtain ⟨r'', h1, h2, h3, h4⟩ := h.2 i t[i] (List.getElem?_eq_getElem hi)
  rw [hr'] at h1
  cases h1
  exact ⟨t[i], List.getElem?_eq_getElem hi, h2.symm, h3.symm, h4.symm⟩

theorem skel_trans {go : Row → Bool} {t t' t'' : Table} (h : Skel go t t')
    (h' : Skel go t' t'') : Skel go t t'' := by
  refine ⟨h'.1.trans h.1, fun i r hr => ?_⟩
  obtain ⟨r1, h1, h2, h3, h4⟩ := h.2 i r hr
  obtain ⟨r2, k1, k2, k3, k4⟩ := h'.2 i r1 h1
  exact ⟨r2, k1, k2.trans h2, k3.trans h3, k4.trans h4⟩

theorem skel_children {go : Row → Bool} {t t' : Table} (h : Skel go t t') (x : String) :
    children t' x = children t x := by
  unfold NavTree.children
  rw [h.1]
  apply List.filter_congr
  intro i hi
  have hi' : i < t.length := List.mem_range.1 hi
  obtain ⟨r', h1, _, h3, _⟩ := h.2 i t[i] (List.getElem?_eq_getElem hi')
  rw [h1, List.getElem?_eq_getElem hi']
  simp only [h3]

theorem skel_reach {go : Row → Bool} {t t' : Table} (h : Skel go t t') {x : String} {i : Nat}
    (hr : Reach go t x i) : Reach go t' x i := by
  induction hr with
  | child h1 h2 =>
    obtain ⟨r', k1, _, k3, _⟩ := h.2 _ _ h1
    exact Reach.child k1 (k3.trans h2)
  | step h1 h2 h3 _ ih =>
    obtain ⟨r', k1, k2, k3, k4⟩ := h.2 _ _ h1
    exact Reach.step k1 (k3.trans h2) (k4.trans h3) (k2 ▸ ih)

theorem skel_reach_iff {go : Row → Bool} {t t' : Table} (h : Skel go t t') (x : String)
    (i : Nat) : Reach go t' x i ↔ Reach go t x i :=
  ⟨fun k => skel_reach (skel_symm h) k, fun k => skel_reach h k⟩

theorem skel_acyclic {go : Row → Bool} {t t' : Table} (h : Skel go t t') {rk : String → Nat}
    (ha : Acyclic rk t) : Acyclic rk t' := by
  intro r' hr'
  obtain ⟨i, hi, rfl⟩ := List.mem_iff_getElem.1 hr'
  obtain ⟨r, h1, h2, h3, _⟩ := (skel_symm h).2 i _ (List.getElem?_eq_getElem hi)
  have := ha r (List.getElem?_mem h1)
  rw [h2, h3] at this
  exact this

theorem skel_modifyAt (go : Row → Bool) (f : Row → Row)
    (hf : ∀ r, (f r).node = r.node ∧ (f r).parent = r.parent ∧ go (f r) = go r)
    (is : List Nat) (t : Table) : Skel go t (modifyAt f is t) := by
  refine ⟨length_modifyAt f is t, fun i r hr => ?_⟩
  rw [getElem?_modifyAt, hr]
  by_cases hi : i ∈ is
  · exact ⟨f r, by simp [hi], (hf r).1, (hf r).2.1, (hf r).2.2⟩
  · exact ⟨r, by simp [hi], rfl, rfl, rfl⟩

theorem reach_iff_children (go : Row → Bool) (t : Table) (x : String) (i : Nat) :
    Reach go t x i ↔ i ∈ children t x ∨
      ∃ c ∈ children t x, ∃ rc, t[c]? = some rc ∧ go rc = true ∧ Reach go t rc.node i := by
  constructor
  · intro h
    cases h with
    | child h1 h2 => exact Or.inl (mem_children.2 ⟨_, h1, h2⟩)
    | step h1 h2 h3 h4 => exact Or.inr ⟨_, mem_children.2 ⟨_, h1, h2⟩, _, h1, h3, h4⟩
  · rintro (h | ⟨c, hc, rc, h1, h3, h4⟩)
    · obtain ⟨r, h1, h2⟩ := mem_children.1 h
      exact Reach.child h1 h2
    · obtain ⟨r, k1, k2⟩ := mem_children.1 hc
      rw [h1] at k1; cases k1
      exact Reach.step h1 k2 h3 h4

/-! ## What `collapse()` and `expand()` compute -/

theorem appliedOn_skel {go : Row → Bool} {f : Row → Row}
    (hf : ∀ r, (f r).node = r.node ∧ (f r).parent = r.parent ∧ go (f r) = go r)
    {S : Nat → Prop} {t t' : Table} (h : AppliedOn f S t t') : Skel go t t' := by
  refine ⟨h.1, fun i r hr => ?_⟩
  by_cases hs : S i
  · exact ⟨f r, (h.2 i r hr).1 hs, (hf r).1, (hf r).2.1, (hf r).2.2⟩
  · exact ⟨r, (h.2 i r hr).2 hs, rfl, rfl, rfl⟩

theorem walk_fold (go : Row → Bool) (f : Row → Row)
    (hf : ∀ r, (f r).node = r.node ∧ (f r).parent = r.parent ∧ go (f r) = go r)
    (hff : ∀ r, f (f r) = f r) (rk : String → Nat) (fuel : Nat) (x : String) (t : Table)
    (ih : ∀ (T : Table) (y : String), Acyclic rk T → rk y < fuel →
      ∃ T', walk go f fuel T y = some T' ∧ AppliedOn f (Reach go T y) T T')
    (hx : rk x < fuel + 1) (ha : Acyclic rk t) :
    ∀ (cs done : List Nat) (T : Table),
      (∀ c ∈ cs, ∃ rc, t[c]? = some rc ∧ rc.parent = x) →
      AppliedOn f (Via go t done) t T →
      ∃ T', cs.foldlM (fun (t : Table) (c : Nat) =>
          match t[c]? with
          | some r => if go r then walk go f fuel t r.node else some t
          | none => some t) T = some T' ∧ AppliedOn f (Via go t (done ++ cs)) t T' := by
  intro cs
  induction cs with
  | nil =>
    intro done T _ hT
    exact ⟨T, rfl, by simpa using hT⟩
  | cons c cs ihc =>
    intro done T hcs hT
    obtain ⟨rc, hrc, hpar⟩ := hcs c (List.mem_cons_self _ _)
    have hsk : Skel go t T := appliedOn_skel hf hT
    obtain ⟨rc', hrc', hn, _, hg⟩ := hsk.2 c rc hrc
    have hrest : ∀ c' ∈ cs, ∃ rc, t[c']? = some rc ∧ rc.parent = x :=
      fun c' hc' => hcs c' (List.mem_cons_of_mem _ hc')
    simp only [List.foldlM_cons, hrc']
    by_cases hgo : go rc = true
    · have hlt : rk rc.node < fuel := by
        have := ha rc (List.getElem?_mem hrc)
        rw [hpar] at this
        omega
      obtain ⟨T1, hw, hs1⟩ := ih T rc.node (skel_acyclic hsk ha) hlt
      have hg' : go rc' = true := hg.trans hgo
      simp only [hg', if_true, hn, hw, Option.bind_eq_bind, Option.some_bind]
      have hmid : AppliedOn f (Via go t (done ++ [c])) t T1 := by
        refine ⟨hs1.1.trans hT.1, fun i r hr => ?_⟩
        have hvia : Via go t (done ++ [c]) i ↔ Via go t done i ∨ Reach go t rc.node i := by
          constructor
          · rintro ⟨c', hc', rc2, h1, h2, h3⟩
            rcases List.mem_append.1 hc' with h | h
            · exact Or.inl ⟨c', h, rc2, h1, h2, h3⟩
            · have : c' = c := by simpa using h
              subst this
              rw [hrc] at h1; cases h1
              exact Or.inr h3
          · rintro (⟨c', hc', rc2, h1, h2, h3⟩ | h)
            · exact ⟨c', List.mem_append_left _ hc', rc2, h1, h2, h3⟩
            · exact ⟨c, by simp, rc, hrc, hgo, h⟩
        have hre : Reach go T rc.node i ↔ Reach go t rc.node i := skel_reach_iff hsk _ _
        by_cases hd : Via go t done i
        · have hTi := (hT.2 i r hr).1 hd
          by_cases hR : Reach go t rc.node i
          · have := (hs1.2 i (f r) hTi).1 (hre.2 hR)
            rw [hff] at this
            exact ⟨fun _ => this, fun hn => absurd (hvia.2 (Or.inl hd)) hn⟩
          · have := (hs1.2 i (f r) hTi).2 (fun h => hR (hre.1 h))
            exact ⟨fun _ => this, fun hn => absurd (hvia.2 (Or.inl hd)) hn⟩
        · have hTi := (hT.2 i r hr).2 hd
          by_cases hR : Reach go t rc.node i
          · have := (hs1.2 i r hTi).1 (hre.2 hR)
            exact ⟨fun _ => this, fun hn => absurd (hvia.2 (Or.inr hR)) hn⟩
          · have := (hs1.2 i r hTi).2 (fun h => hR (hre.1 h))
            refine ⟨fun hv => ?_, fun _ => this⟩
            rcases hvia.1 hv with h | h
            · exact absurd h hd
            · exact absurd h hR
      obtain ⟨T', hfold, hT'⟩ := ihc (done ++ [c]) T1 hrest hmid
      exact ⟨T', hfold, by simpa using hT'⟩
    · have hg' : ¬ go rc' = true := by rw [hg]; exact hgo
      simp only [hg', if_false, Option.bind_eq_bind, Option.some_bind]
      have hmid : AppliedOn f (Via go t (done ++ [c])) t T := by
        refine ⟨hT.1, fun i r hr => ?_⟩
        have hvia : Via go t (done ++ [c]) i ↔ Via go t done i := by
          constructor
          · rintro ⟨c', hc', rc2, h1, h2, h3⟩
            rcases List.mem_append.1 hc' with h | h
            · exact ⟨c', h, rc2, h1, h2, h3⟩
            · have : c' = c := by simpa using h
              subst this
              rw [hrc] at h1; cases h1
              exact absurd h2 hgo
          · rintro ⟨c', hc', rc2, h1, h2, h3⟩
            exact ⟨c', List.mem_append_left _ hc', rc2, h1, h2, h3⟩
        rw [hvia]
        exact hT.2 i r hr
      obtain ⟨T', hfold, hT'⟩ := ihc (done ++ [c]) T hrest hmid
      exact ⟨T', hfold, by simpa using hT'⟩

theorem walk_spec (go : Row → Bool) (f : Row → Row)
    (hf : ∀ r, (f r).node = r.node ∧ (f r).parent = r.parent ∧ go (f r) = go r)
    (hff : ∀ r, f (f r) = f r) (rk : String → Nat) :
    ∀ (fuel : Nat) (t : Table) (x : String), Acyclic rk t → rk x < fuel →
      ∃ t', walk go f fuel t x = some t' ∧ AppliedOn f (Reach go t x) t t' := by
  intro fuel
  induction fuel with
  | zero => intro t x _ h; omega
  | succ n ih =>
    intro t x ha hx
    have h0 : AppliedOn f (Via go t []) t t :=
      ⟨rfl, fun i r hr => ⟨fun ⟨c, hc, _⟩ => by simp at hc, fun _ => hr⟩⟩
    obtain ⟨T', hfold, hT'⟩ := walk_fold go f hf hff rk n x t ih hx ha (children t x) [] t
      (fun c hc => mem_children.1 hc) h0
    refine ⟨modifyAt f (children t x) T', ?_, ?_⟩
    · exact congrArg (Option.map (modifyAt f (children t x))) hfold
    · refine ⟨(length_modifyAt _ _ _).trans hT'.1, fun i r hr => ?_⟩
      rw [getElem?_modifyAt]
      simp only [List.nil_append] at hT'
      have hiff := reach_iff_children go t x i
      by_cases hv : Via go t (children t x) i
      · have hTi := (hT'.2 i r hr).1 hv
        rw [hTi]
        refine ⟨fun _ => ?_, fun hn => absurd (hiff.2 (Or.inr hv)) hn⟩
        by_cases hi : i ∈ children t x <;> simp [hi, hff]
      · have hTi := (hT'.2 i r hr).2 hv
        rw [hTi]
        by_cases hi : i ∈ children t x
        · exact ⟨fun _ => by simp [hi], fun hn => absurd (hiff.2 (Or.inl hi)) hn⟩
        · refine ⟨fun h => ?_, fun _ => by simp [hi]⟩
          rcases hiff.1 h with h | h
          · exact absurd h hi
          · exact absurd h hv

/-! ## What `collapse_all()` and `expand_all()` compute -/

theorem mono_refl (M V : Row → Prop) (t : Table) : Mono M V t t :=
  ⟨rfl, fun _ r h => ⟨r, h, rfl, rfl, id, id⟩⟩

theorem mono_trans {M V : Row → Prop} {t t' t'' : Table} (h : Mono M V t t')
    (h' : Mono M V t' t'') : Mono M V t t'' := by
  refine ⟨h'.1.trans h.1, fun i r hr => ?_⟩
  obtain ⟨r1, h1, h2, h3, h4, h5⟩ := h.2 i r hr
  obtain ⟨r2, k1, k2, k3, k4, k5⟩ := h'.2 i r1 h1
  exact ⟨r2, k1, k2.trans h2, k3.trans h3, fun m => k4 (h4 m), fun v => k5 (h5 v)⟩

theorem mono_skel {M V : Row → Prop} {t t' : Table} (h : Mono M V t t') :
    Skel (fun _ => true) t t' :=
  ⟨h.1, fun i r hr => by
    obtain ⟨r', h1, h2, h3, _, _⟩ := h.2 i r hr
    exact ⟨r', h1, h2, h3, rfl⟩⟩

theorem mono_modifyAt (M V : Row → Prop) (f : Row → Row)
    (hf : ∀ r, (f r).node = r.node ∧ (f r).parent = r.parent)
    (hM : ∀ r, M r → M (f r)) (hV : ∀ r, V r → V (f r))
    (is : List Nat) (t : Table) : Mono M V t (modifyAt f is t) := by
  refine ⟨length_modifyAt f is t, fun i r hr => ?_⟩
  rw [getElem?_modifyAt, hr]
  by_cases hi : i ∈ is
  · exact ⟨f r, by simp [hi], (hf r).1, (hf r).2, hM r, hV r⟩
  · exact ⟨r, by simp [hi], rfl, rfl, id, id⟩

theorem walk_all_fold (M V : Row → Prop) (mark f : Row → Row) (rk : String → Nat)
    (fuel : Nat) (x : String) (t : Table)
    (ih : ∀ (p : Page) (e : Nat) (r : Row), Acyclic rk p.rows → p.rows[e]? = some r →
      rk r.node < fuel →
      ∃ p', walk_all mark f fuel p e = some p' ∧ Mono M V p.rows p'.rows ∧
        (∃ r', p'.rows[e]? = some r' ∧ M r') ∧
        (∀ i, Descendant p.rows r.node i → ∃ r', p'.rows[i]? = some r' ∧ M r' ∧ V r'))
    (hx : rk x < fuel + 1) (ha : Acyclic rk t) :
    ∀ (cs : List Nat) (P : Page),
      (∀ c ∈ cs, ∃ rc, t[c]? = some rc ∧ rc.parent = x) →
      Mono M V t P.rows →
      ∃ P', cs.foldlM (fun (p : Page) (c : Nat) => walk_all mark f fuel p c) P = some P' ∧
        Mono M V P.rows P'.rows ∧
        ∀ c ∈ cs, ∀ rc, t[c]? = some rc →
          (∃ r', P'.rows[c]? = some r' ∧ M r') ∧
          ∀ i, Descendant t rc.node i → ∃ r', P'.rows[i]? = some r' ∧ M r' ∧ V r' := by
  intro cs
  induction cs with
  | nil =>
    intro P _ _
    exact ⟨P, rfl, mono_refl _ _ _, fun c hc => by simp at hc⟩
  | cons c cs ihc =>
    intro P hcs hP
    obtain ⟨rc, hrc, hpar⟩ := hcs c (List.mem_cons_self _ _)
    obtain ⟨rc', hrc', hn, _, _, _⟩ := hP.2 c rc hrc
    have hlt : rk rc'.node < fuel := by
      have := ha rc (List.getElem?_mem hrc)
      rw [hpar] at this
      rw [hn]
      omega
    obtain ⟨P1, hw, hm1, hroot, hdesc⟩ := ih P c rc' (skel_acyclic (mono_skel hP) ha) hrc' hlt
    obtain ⟨P', hfold, hm', hall⟩ := ihc P1
      (fun c' hc' => hcs c' (List.mem_cons_of_mem _ hc')) (mono_trans hP hm1)
    refine ⟨P', ?_, mono_trans hm1 hm', ?_⟩
    · simp only [List.foldlM_cons, hw, Option.bind_eq_bind, Option.some_bind]
      exact hfold
    · intro c' hc' rc2 hrc2
      rcases List.mem_cons.1 hc' with rfl | h
      · rw [hrc] at hrc2; cases hrc2
        constructor
        · obtain ⟨r1, h1, hM1⟩ := hroot
          obtain ⟨r2, h2, _, _, hM2, _⟩ := hm'.2 _ r1 h1
          exact ⟨r2, h2, hM2 hM1⟩
        · intro i hi
          have hi' : Descendant P.rows rc'.node i := by
            rw [hn]
            exact skel_reach (mono_skel hP) hi
          obtain ⟨r1, h1, hM1, hV1⟩ := hdesc i hi'
          obtain ⟨r2, h2, _, _, hM2, hV2⟩ := hm'.2 _ r1 h1
          exact ⟨r2, h2, hM2 hM1, hV2 hV1⟩
      · exact hall c' h rc2 hrc2

theorem walk_all_spec (M V : Row → Prop) (mark f : Row → Row)
    (hmark : ∀ r, (mark r).node = r.node ∧ (mark r).parent = r.parent)
    (hf : ∀ r, (f r).node = r.node ∧ (f r).parent = r.parent)
    (hMm : ∀ r, M (mark r)) (hMf : ∀ r, M r → M (f r))
    (hVf : ∀ r, V (f r)) (hVm : ∀ r, V r → V (mark r)) (rk : String → Nat) :
    ∀ (fuel : Nat) (p : Page) (e : Nat) (r : Row), Acyclic rk p.rows → p.rows[e]? = some r →
      rk r.node < fuel →
      ∃ p', walk_all mark f fuel p e = some p' ∧ Mono M V p.rows p'.rows ∧
        (∃ r', p'.rows[e]? = some r' ∧ M r') ∧
        (∀ i, Descendant p.rows r.node i → ∃ r', p'.rows[i]? = some r' ∧ M r' ∧ V r') := by
  intro fuel
  induction fuel with
  | zero => intro p e r _ _ h; omega
  | succ n ih =>
    intro p e r ha hr hlt
    have hm1 : Mono M V p.rows (modifyAt mark [e] p.rows) :=
      mono_modifyAt M V mark hmark (fun r _ => hMm r) hVm [e] p.rows
    have hcs : children (modifyAt mark [e] p.rows) r.node = children p.rows r.node :=
      skel_children (mono_skel hm1) _
    obtain ⟨P', hfold, hm', hall⟩ := walk_all_fold M V mark f rk n r.node p.rows ih hlt ha
      (children p.rows r.node) { p with rows := modifyAt mark [e] p.rows }
      (fun c hc => mem_children.1 hc) hm1
    have hm2 : Mono M V P'.rows (modifyAt f (children p.rows r.node) P'.rows) :=
      mono_modifyAt M V f hf hMf (fun r _ => hVf r) _ _
    refine ⟨{ rows := modifyAt f (children p.rows r.node) P'.rows, session := fun _ => none },
      ?_, mono_trans hm1 (mono_trans hm' hm2), ?_, ?_⟩
    · simp only [walk_all, hr, hcs]
      exact congrArg (Option.map fun (p2 : Page) =>
        ({ rows := modifyAt f (children p.rows r.node) p2.rows,
           session := fun _ => none } : Page)) hfold
    · have h0 : (modifyAt mark [e] p.rows)[e]? = some (mark r) := by
        rw [getElem?_modifyAt, hr]; simp
      obtain ⟨r1, h1, _, _, hM1, _⟩ := (mono_trans hm' hm2).2 e _ h0
      exact ⟨r1, h1, hM1 (hMm r)⟩
    · intro i hi
      rcases (reach_iff_children _ _ _ _).1 hi with hc | ⟨c, hc, rc, hrc, _, hd⟩
      · obtain ⟨ri, hri, _⟩ := mem_children.1 hc
        obtain ⟨⟨r1, h1, hM1⟩, _⟩ := hall i hc ri hri
        refine ⟨f r1, ?_, hMf _ hM1, hVf _⟩
        show (modifyAt f (children p.rows r.node) P'.rows)[i]? = some (f r1)
        rw [getElem?_modifyAt, h1]
        simp [hc]
      · obtain ⟨r1, h1, hM1, hV1⟩ := (hall c hc rc hrc).2 i hd
        obtain ⟨r2, h2, _, _, hM2, hV2⟩ := hm2.2 i r1 h1
        exact ⟨r2, h2, hM2 hM1, hV2 hV1⟩

theorem walk_all_session (mark f : Row → Row) (fuel : Nat) (p p' : Page) (e : Nat)
    (h : walk_all mark f fuel p e = some p') : p'.session = fun _ => none := by
  cases fuel with
  | zero => simp [walk_all] at h
  | succ n =>
    simp only [walk_all] at h
    split at h
    · cases h
    · simp only [Option.map_eq_some'] at h
      obtain ⟨p2, _, rfl⟩ := h
      rfl

/-! ## The move request and the move reconciler (C1, C2, C3) -/

theorem node_new_eq {t : Table} {e : Nat} {n : Node} (h : Node.new t e = some n) :
    ∃ r, t[e]? = some r ∧ n = ⟨e, r.node, r.parent, r.level, r.children_num⟩ := by
  unfold Node.new at h
  cases hr : t[e]? with
  | none => rw [hr] at h; cases h
  | some r => rw [hr] at h; cases h; exact ⟨r, rfl, rfl⟩

/-- C1 (as amended): for a drag released with a non-null target T whose node
id differs from the dragged node's id and a confirmed prompt, the request has
node_id = the dragged node's id, sibling_id = T's id, as_child = 1 in child
mode and 0 in sibling mode, and parent_id = T's parent id in both modes. -/
theorem mouseup_request_fields (ui : UI) (d : Drag) (j : Nat) (T : Row)
    (htarget : d.targetRow = some j) (hT : ui.rows[j]? = some T)
    (hne : T.node ≠ d.node.node_id) :
    (mouseup ui d true).2.map (fun q => q.1) =
      some { node_id := d.node.node_id, parent_id := T.parent, sibling_id := T.node,
             as_child := if d.as_child then 1 else 0 } := by
  simp [mouseup, mouseup_request, htarget, Node.new, hT, hne]

/-- Witness of C1 as amended: `n5` dropped on the bottom half of `n7`, whose
parent is `n2`. -/
theorem mouseup_request_fields_witness :
    (mouseup moveUI moveDrag true).2.map (fun q => q.1) =
      some { node_id := "n5", parent_id := "n2", sibling_id := "n7", as_child := 1 } :=
  mouseup_request_fields moveUI moveDrag 2 (mkRow "n7" "n2" 2 0) rfl rfl (by decide)

/-- C1 fails as stated: in child mode the request of the scenario carries
parent_id `n2`, the parent of the target, and not the target's id `n7`. -/
theorem mouseup_request_parent_counterexample :
    moveDrag.as_child = true ∧
    (mouseup moveUI moveDrag true).2.map (fun q => q.1) ≠
      some { node_id := "n5", parent_id := "n7", sibling_id := "n7", as_child := 1 } ∧
    (mouseup moveUI moveDrag true).2.map (fun q => q.1.parent_id) = some "n2" := by
  decide

theorem eraseIdx_modifyAt_self (f : Row → Row) (i : Nat) (t : Table) :
    (modifyAt f [i] t).eraseIdx i = t.eraseIdx i := by
  apply List.ext_getElem?
  intro n
  rw [List.getElem?_eraseIdx, List.getElem?_eraseIdx]
  by_cases h : n < i
  · have : n ≠ i := by omega
    simp [h, getElem?_modifyAt, this]
  · have : n + 1 ≠ i := by omega
    simp [h, getElem?_modifyAt, this]

theorem insertAfter_spec (t : Table) (i j : Nat) (a : Row) (ha : t[i]? = some a)
    (hj : j < t.length) (hij : i ≠ j) :
    ∃ k, (insertAfter t i j)[k]? = some a ∧ (insertAfter t i j).eraseIdx k = t.eraseIdx i := by
  have hi : i < t.length := (List.getElem?_eq_some.1 ha).1
  have hlen : (t.eraseIdx i).length = t.length - 1 := List.length_eraseIdx_of_lt hi
  have hm : (if i < j then j - 1 else j) + 1 ≤ (t.eraseIdx i).length := by
    rw [hlen]; split <;> omega
  refine ⟨(if i < j then j - 1 else j) + 1, ?_, ?_⟩
  · simp only [insertAfter, ha]
    rw [List.getElem?_eq_getElem (by rw [List.length_insertIdx _ _ hm]; omega)]
    rw [List.getElem_insertIdx_self _ _ _ hm]
  · simp only [insertAfter, ha]
    rw [List.eraseIdx_insertIdx]

theorem insertBefore_spec (t : Table) (i j : Nat) (a : Row) (ha : t[i]? = some a)
    (hj : j < t.length) :
    ∃ k, (insertBefore t i j)[k]? = some a ∧ (insertBefore t i j).eraseIdx k = t.eraseIdx i := by
  have hi : i < t.length := (List.getElem?_eq_some.1 ha).1
  have hlen : (t.eraseIdx i).length = t.length - 1 := List.length_eraseIdx_of_lt hi
  have hm : (if i < j then j - 1 else j) ≤ (t.eraseIdx i).length := by
    rw [hlen]; split <;> omega
  refine ⟨(if i < j then j - 1 else j), ?_, ?_⟩
  · simp only [insertBefore, ha]
    rw [List.getElem?_eq_getElem (by rw [List.length_insertIdx _ _ hm]; omega)]
    rw [List.getElem_insertIdx_self _ _ _ hm]
  · simp only [insertBefore, ha]
    rw [List.eraseIdx_insertIdx]

/-- C2: after a successful move of the row A (at position `i`) onto the target
T (at position `j`, level L), the table holds, at some position `k`, the row A
with level L+1 and parent T's id in child mode, level L and parent T's parent
id in sibling mode; every other row is unchanged and keeps its place among
the others. -/
theorem move_success_attrs (t : Table) (i j : Nat) (A T : Row) (node target_node : Node)
    (as_child : Bool) (hA : t[i]? = some A) (hT : t[j]? = some T) (hij : i ≠ j)
    (hnode : Node.new t i = some node) (htarget : Node.new t j = some target_node) :
    ∃ k A', (move_success t node target_node as_child)[k]? = some A' ∧
      A'.level = (if as_child then T.level + 1 else T.level) ∧
      A'.parent = (if as_child then T.node else T.parent) ∧
      A' = { A with parent := A'.parent, level := A'.level, s_width := A'.s_width } ∧
      (move_success t node target_node as_child).eraseIdx k = t.eraseIdx i := by
  obtain ⟨rA, hrA, rfl⟩ := node_new_eq hnode
  obtain ⟨rT, hrT, rfl⟩ := node_new_eq htarget
  rw [hA] at hrA; cases hrA
  rw [hT] at hrT; cases hrT
  have hj : j < t.length := (List.getElem?_eq_some.1 hT).1
  cases as_child with
  | true =>
    simp only [move_success, hT, if_true]
    obtain ⟨k, h1, h2⟩ := insertAfter_spec
      (modifyAt (patch_moved T.node (T.level + 1)) [i] t) i j
      (patch_moved T.node (T.level + 1) A)
      (by rw [getElem?_modifyAt, hA]; simp) (by rw [length_modifyAt]; exact hj) hij
    exact ⟨k, _, h1, rfl, rfl, rfl, by rw [h2, eraseIdx_modifyAt_self]⟩
  | false =>
    simp only [move_success, hT, Bool.false_eq_true, if_false, Nat.add_zero]
    obtain ⟨k, h1, h2⟩ := insertBefore_spec
      (modifyAt (patch_moved T.parent T.level) [i] t) i j
      (patch_moved T.parent T.level A)
      (by rw [getElem?_modifyAt, hA]; simp) (by rw [length_modifyAt]; exact hj)
    exact ⟨k, _, h1, rfl, rfl, rfl, by rw [h2, eraseIdx_modifyAt_self]⟩

/-- Witness of C2: `n5` (level 2) moved as a child onto `n7` (level 2). -/
theorem move_success_attrs_witness :
    ∃ k A', (move_success moveTable ⟨1, "n5", "n2", 2, 0⟩ ⟨2, "n7", "n2", 2, 0⟩ true)[k]? =
        some A' ∧
      A'.level = 3 ∧ A'.parent = "n7" ∧
      A' = { mkRow "n5" "n2" 2 0 with
             parent := A'.parent, level := A'.level, s_width := A'.s_width } ∧
      (move_success moveTable ⟨1, "n5", "n2", 2, 0⟩ ⟨2, "n7", "n2", 2, 0⟩ true).eraseIdx k =
        moveTable.eraseIdx 1 :=
  move_success_attrs moveTable 1 2 (mkRow "n5" "n2" 2 0) (mkRow "n7" "n2" 2 0)
    ⟨1, "n5", "n2", 2, 0⟩ ⟨2, "n7", "n2", 2, 0⟩ true rfl rfl (by decide) rfl rfl

/-- The move scenario in full: `n5` ends right after `n7`, at level 3 with
parent `n7`. -/
theorem move_success_scenario :
    move_success moveTable ⟨1, "n5", "n2", 2, 0⟩ ⟨2, "n7", "n2", 2, 0⟩ true =
      [mkRow "n2" "" 1 2, mkRow "n7" "n2" 2 0,
       { mkRow "n5" "n7" 3 0 with s_width := some 2 }] := by
  decide

/-- C3: on pointer release a move request is issued if and only if the target
is non-null, the prompt was accepted and the target's node id differs from
the dragged node's id. -/
theorem mouseup_request_iff (ui : UI) (d : Drag) (confirmMove : Bool) :
    (mouseup ui d confirmMove).2.isSome = true ↔
      ∃ j T, d.targetRow = some j ∧ ui.rows[j]? = some T ∧ confirmMove = true ∧
        T.node ≠ d.node.node_id := by
  unfold mouseup mouseup_request
  cases htr : d.targetRow with
  | none => simp
  | some j =>
    cases confirmMove with
    | false => simp
    | true =>
      cases hT : ui.rows[j]? with
      | none => simp [Node.new, hT]
      | some T =>
        by_cases hne : T.node = d.node.node_id <;> simp [Node.new, hT, hne]

/-! ## Toggling, collapsing and expanding (C4, C5, C6, C7) -/

theorem reach_true {go : Row → Bool} {t : Table} {x : String} {i : Nat}
    (h : Reach go t x i) : Descendant t x i := by
  induction h with
  | child h1 h2 => exact Reach.child h1 h2
  | step h1 h2 _ _ ih => exact Reach.step h1 h2 rfl ih

theorem reach_rank {go : Row → Bool} {rk : String → Nat} {t : Table} {x : String} {i : Nat}
    {r : Row} (ha : Acyclic rk t) (h : Reach go t x i) (hr : t[i]? = some r) :
    rk r.node < rk x := by
  induction h with
  | child h1 h2 =>
    rw [hr] at h1
    cases h1
    rw [← h2]
    exact ha r (List.getElem?_mem hr)
  | step h1 h2 _ _ ih =>
    have := ha _ (List.getElem?_mem h1)
    rw [h2] at this
    exact Nat.lt_trans (ih hr) this

/-- C4, at the failing input: `toggle()` on the expanded row `n1` while
`n1`, `n2`, `n3` are stored sets the marker of `n1` to collapsed and stores
`n3`, the id of a descendant of `n1`, where the claim has the empty list. -/
theorem toggle_keeps_grandchild_id :
    ∃ p, toggle 4 (expanded_key "7") openPage ⟨0, "n1", "", 1, 1⟩ = .ok p ∧
      p.rows[0]?.map (fun r => (r.collapsed, r.expanded)) = some (true, false) ∧
      Descendant openPage.rows "n1" 2 ∧
      get_expanded p.session (expanded_key "7") = .ok ["n3"] := by
  refine ⟨_, rfl, by decide, ?_, rfl⟩
  exact Reach.step (c := 1) rfl rfl rfl (Reach.child (i := 2) rfl rfl)

/-- C5 fails as stated: on the chain as first loaded, `n2` is hidden before
`collapse()` and `expand()` on `n1` and shown after, although its parent `n1`
carries the collapsed marker. -/
theorem collapse_expand_counterexample :
    ∃ t1 t2, collapse 4 chainTable "n1" = some t1 ∧ expand 4 t1 "n1" = some t2 ∧
      chainTable.map (fun r => r.hidden) = [false, true, true, true] ∧
      t2.map (fun r => r.hidden) = [false, false, true, true] ∧
      chainTable[0]?.map (fun r => r.collapsed) = some true := by
  refine ⟨_, _, rfl, rfl, ?_, ?_, ?_⟩ <;> decide

/-- C5 (as amended): on a table without cycles, `collapse()` followed by
`expand()` on the node `x` returns; it changes no attribute and no marker of
any row; it leaves a descendant of `x` shown exactly when every row strictly
between `x` and it carries the `expanded` class, and leaves the visibility of
the rows that are no descendants as it was.  So the table is restored exactly
when, before the collapse, the shown descendants of `x` were those reached
through expanded markers. -/
theorem collapse_expand_spec (rk : String → Nat) (fuel : Nat) (t : Table) (x : String)
    (ha : Acyclic rk t) (hfuel : rk x < fuel) :
    ∃ t1 t2, collapse fuel t x = some t1 ∧ expand fuel t1 x = some t2 ∧
      t2.length = t.length ∧
      (∀ (i : Nat) (r : Row), t[i]? = some r →
        (Revealed t x i → t2[i]? = some { r with hidden := false }) ∧
        (Descendant t x i → ¬ Revealed t x i → t2[i]? = some { r with hidden := true }) ∧
        (¬ Descendant t x i → t2[i]? = some r)) ∧
      ((∀ (i : Nat) (r : Row), t[i]? = some r → Descendant t x i →
          (r.hidden = false ↔ Revealed t x i)) ↔ t2 = t) := by
  obtain ⟨t1, h1, s1⟩ := walk_spec (fun _ => true) (fun r => { r with hidden := true })
    (fun _ => ⟨rfl, rfl, rfl⟩) (fun _ => rfl) rk fuel t x ha hfuel
  have hsk : Skel (fun r => r.expanded) t t1 :=
    @appliedOn_skel (fun r => r.expanded) (fun r => { r with hidden := true })
      (fun _ => ⟨rfl, rfl, rfl⟩) _ _ _ s1
  obtain ⟨t2, h2, s2⟩ := walk_spec (fun r => r.expanded) (fun r => { r with hidden := false })
    (fun _ => ⟨rfl, rfl, rfl⟩) (fun _ => rfl) rk fuel t1 x (skel_acyclic hsk ha) hfuel
  have hpt : ∀ (i : Nat) (r : Row), t[i]? = some r →
      (Revealed t x i → t2[i]? = some { r with hidden := false }) ∧
      (Descendant t x i → ¬ Revealed t x i → t2[i]? = some { r with hidden := true }) ∧
      (¬ Descendant t x i → t2[i]? = some r) := by
    intro i r hr
    have hre : Reach (fun r => r.expanded) t1 x i ↔ Revealed t x i := skel_reach_iff hsk x i
    refine ⟨fun hv => ?_, fun hd hv => ?_, fun hd => ?_⟩
    · have hd : Descendant t x i := reach_true hv
      have := (s2.2 i _ ((s1.2 i r hr).1 hd)).1 (hre.2 hv)
      exact this
    · exact (s2.2 i _ ((s1.2 i r hr).1 hd)).2 (fun h => hv (hre.1 h))
    · exact (s2.2 i _ ((s1.2 i r hr).2 hd)).2 (fun h => hd (reach_true (hre.1 h)))
  refine ⟨t1, t2, by rw [collapse_eq_walk]; exact h1, by rw [expand_eq_walk]; exact h2,
    s2.1.trans s1.1, hpt, fun hcons => ?_, fun heq i r hr hd => ?_⟩
  · apply List.ext_getElem?
    intro i
    cases hr : t[i]? with
    | none =>
      have : t.length ≤ i := List.getElem?_eq_none_iff.1 hr
      exact List.getElem?_eq_none_iff.2 (by rw [s2.1, s1.1]; exact this)
    | some r =>
      by_cases hd : Descendant t x i
      · by_cases hv : Revealed t x i
        · rw [(hpt i r hr).1 hv]
          have : r.hidden = false := (hcons i r hr hd).2 hv
          cases r; simp_all
        · rw [(hpt i r hr).2.1 hd hv]
          have : r.hidden = true := by
            cases h : r.hidden with
            | true => rfl
            | false => exact absurd ((hcons i r hr hd).1 h) hv
          cases r; simp_all
      · exact (hpt i r hr).2.2 hd
  · by_cases hv : Revealed t x i
    · have h := (hpt i r hr).1 hv
      rw [heq, hr] at h
      have hh : r.hidden = false := by
        have := congrArg Row.hidden (Option.some.inj h)
        exact this
      exact ⟨fun _ => hv, fun _ => hh⟩
    · have h := (hpt i r hr).2.1 hd hv
      rw [heq, hr] at h
      have hh : r.hidden = true := by
        have := congrArg Row.hidden (Option.some.inj h)
        exact this
      exact ⟨fun hf => (by rw [hh] at hf; cases hf), fun h' => absurd h' hv⟩

/-- Witness of C5 as amended: in `nestedTable` the shown descendants of `n1`
are `n2` and `n4`, the rows reached through expanded markers, `n3` under the
collapsed `n2` being hidden; `collapse()` then `expand()` on `n1` gives the
table back. -/
theorem collapse_expand_spec_witness :
    Acyclic chainRank nestedTable ∧ chainRank "n1" < 4 ∧
    (∀ (i : Nat) (r : Row), nestedTable[i]? = some r → Descendant nestedTable "n1" i →
      (r.hidden = false ↔ Revealed nestedTable "n1" i)) ∧
    ∃ t1 t2, collapse 4 nestedTable "n1" = some t1 ∧ expand 4 t1 "n1" = some t2 ∧
      t2 = nestedTable := by
  have ha : Acyclic chainRank nestedTable := by unfold Acyclic; decide
  have hcons : ∀ (i : Nat) (r : Row), nestedTable[i]? = some r →
      Descendant nestedTable "n1" i → (r.hidden = false ↔ Revealed nestedTable "n1" i) := by
    intro i r hr hd
    have hi : i < 4 := (List.getElem?_eq_some.1 hr).1
    have hrk := reach_rank ha hd hr
    interval_cases i
    · have : r = mkRow "n1" "" 1 2 := (Option.some.inj hr).symm
      subst this
      exact absurd hrk (by decide)
    · have : r = mkRow "n2" "n1" 2 1 := (Option.some.inj hr).symm
      subst this
      exact ⟨fun _ => Reach.child (i := 1) rfl rfl, fun _ => rfl⟩
    · have : r = { mkRow "n3" "n2" 3 0 with hidden := true } := (Option.some.inj hr).symm
      subst this
      refine ⟨fun h => (by cases h), fun hv => ?_⟩
      exfalso
      cases hv with
      | child h1 h2 =>
        have h3 := Option.some.inj h1
        subst h3
        exact absurd h2 (by decide)
      | step h1 h2 h3 _ =>
        have := List.getElem?_mem h1
        have hall : ∀ x ∈ nestedTable, x.expanded = false := by decide
        rw [hall _ this] at h3
        cases h3
    · have : r = mkRow "n4" "n1" 2 0 := (Option.some.inj hr).symm
      subst this
      exact ⟨fun _ => Reach.child (i := 3) rfl rfl, fun _ => rfl⟩
  obtain ⟨t1, t2, h1, h2, _, _, hres⟩ :=
    collapse_expand_spec chainRank 4 nestedTable "n1" ha (by decide)
  exact ⟨ha, by decide, hcons, t1, t2, h1, h2, hres.1 hcons⟩

/-- C6, at the failing input: from the first page load of the chain, with
nothing stored, the clicks on the toggles of `n1`, `n2`, `n3` (each shown when
clicked) and again `n1` leave `n3` stored while its ancestors `n2` and `n1`
are not. -/
theorem toggles_leave_orphan_id :
    ∃ p1 p2 p3 p4,
      chainPage.rows[0]?.map (fun r => r.hidden) = some false ∧
      click_collapse 4 "7" chainPage 0 = .ok p1 ∧
      p1.rows[1]?.map (fun r => r.hidden) = some false ∧
      click_collapse 4 "7" p1 1 = .ok p2 ∧
      p2.rows[2]?.map (fun r => r.hidden) = some false ∧
      click_collapse 4 "7" p2 2 = .ok p3 ∧
      get_expanded p3.session (expanded_key "7") = .ok ["n1", "n2", "n3"] ∧
      p3.rows[0]?.map (fun r => r.hidden) = some false ∧
      click_collapse 4 "7" p3 0 = .ok p4 ∧
      get_expanded p4.session (expanded_key "7") = .ok ["n3"] ∧
      p4.rows.map (fun r => (r.id, r.parent)) =
        [("n1", ""), ("n2", "n1"), ("n3", "n2"), ("n4", "n3")] := by
  refine ⟨_, _, _, _, ?_, rfl, ?_, rfl, ?_, rfl, rfl, ?_, rfl, rfl, ?_⟩ <;> decide

/-- C7: on a table without cycles, `expand_all()` on a row returns, leaves
that row and every transitive descendant with the expanded marker and every
descendant shown, and leaves nothing stored for the tree; `collapse_all()`
returns, leaves the row and every descendant with the collapsed marker and
every descendant hidden, and leaves nothing stored; `collapse_all()` run after
`expand_all()` again leaves nothing stored. -/
theorem expand_all_collapse_all_spec (rk : String → Nat) (fuel : Nat) (p : Page) (e : Nat)
    (r : Row) (menu_content_id : String)
    (ha : Acyclic rk p.rows) (hr : p.rows[e]? = some r) (hfuel : rk r.node < fuel) :
    (∃ p1, expand_all fuel p e = some p1 ∧
      (∃ r', p1.rows[e]? = some r' ∧ MarkedExpanded r') ∧
      (∀ i, Descendant p.rows r.node i →
        ∃ r', p1.rows[i]? = some r' ∧ MarkedExpanded r' ∧ r'.hidden = false) ∧
      get_expanded p1.session (expanded_key menu_content_id) = .ok [] ∧
      ∃ p2, collapse_all fuel p1 e = some p2 ∧
        get_expanded p2.session (expanded_key menu_content_id) = .ok []) ∧
    (∃ p1, collapse_all fuel p e = some p1 ∧
      (∃ r', p1.rows[e]? = some r' ∧ MarkedCollapsed r') ∧
      (∀ i, Descendant p.rows r.node i →
        ∃ r', p1.rows[i]? = some r' ∧ MarkedCollapsed r' ∧ r'.hidden = true) ∧
      get_expanded p1.session (expanded_key menu_content_id) = .ok []) := by
  have hE := walk_all_spec MarkedExpanded (fun r => r.hidden = false) markExpanded
    (fun r => { r with hidden := false }) (fun _ => ⟨rfl, rfl⟩) (fun _ => ⟨rfl, rfl⟩)
    (fun _ => ⟨rfl, rfl⟩) (fun _ h => h) (fun _ => rfl) (fun _ h => h) rk
  have hC := walk_all_spec MarkedCollapsed (fun r => r.hidden = true) markCollapsed
    (fun r => { r with hidden := true }) (fun _ => ⟨rfl, rfl⟩) (fun _ => ⟨rfl, rfl⟩)
    (fun _ => ⟨rfl, rfl⟩) (fun _ h => h) (fun _ => rfl) (fun _ h => h) rk
  constructor
  · obtain ⟨p1, h1, hm, hroot, hdesc⟩ := hE fuel p e r ha hr hfuel
    have hs1 := walk_all_session _ _ _ _ _ _ h1
    obtain ⟨r1, hr1, hn1, _, _, _⟩ := hm.2 e r hr
    obtain ⟨p2, h2, _, _, _⟩ := hC fuel p1 e r1 (skel_acyclic (mono_skel hm) ha) hr1 (by rw [hn1]; exact hfuel)
    have hs2 := walk_all_session _ _ _ _ _ _ h2
    refine ⟨p1, by rw [expand_all_eq_walk_all]; exact h1, hroot, hdesc, ?_, p2,
      by rw [collapse_all_eq_walk_all]; exact h2, ?_⟩
    · simp [get_expanded, hs1, JSON_parse, truthy]
    · simp [get_expanded, hs2, JSON_parse, truthy]
  · obtain ⟨p1, h1, _, hroot, hdesc⟩ := hC fuel p e r ha hr hfuel
    have hs1 := walk_all_session _ _ _ _ _ _ h1
    refine ⟨p1, by rw [collapse_all_eq_walk_all]; exact h1, hroot, hdesc, ?_⟩
    simp [get_expanded, hs1, JSON_parse, truthy]

/-- Witness of C7: the chain with `n1`, `n2`, `n3` expanded and stored, at
its root. -/
theorem expand_all_collapse_all_spec_witness :
    Acyclic chainRank openPage.rows ∧ openPage.rows[0]? = some (markExpanded (mkRow "n1" "" 1 1)) ∧
    chainRank "n1" < 4 ∧
    (∃ p1, expand_all 4 openPage 0 = some p1 ∧
      (∃ r', p1.rows[0]? = some r' ∧ MarkedExpanded r') ∧
      (∀ i, Descendant openPage.rows (markExpanded (mkRow "n1" "" 1 1)).node i →
        ∃ r', p1.rows[i]? = some r' ∧ MarkedExpanded r' ∧ r'.hidden = false) ∧
      get_expanded p1.session (expanded_key "7") = .ok [] ∧
      ∃ p2, collapse_all 4 p1 0 = some p2 ∧
        get_expanded p2.session (expanded_key "7") = .ok []) ∧
    (∃ p1, collapse_all 4 openPage 0 = some p1 ∧
      (∃ r', p1.rows[0]? = some r' ∧ MarkedCollapsed r') ∧
      (∀ i, Descendant openPage.rows (markExpanded (mkRow "n1" "" 1 1)).node i →
        ∃ r', p1.rows[i]? = some r' ∧ MarkedCollapsed r' ∧ r'.hidden = true) ∧
      get_expanded p1.session (expanded_key "7") = .ok []) :=
  ⟨by unfold Acyclic; decide, rfl, by decide,
   expand_all_collapse_all_spec chainRank 4 openPage 0 (markExpanded (mkRow "n1" "" 1 1)) "7"
     (by unfold Acyclic; decide) rfl (by decide)⟩

/-! ## Handlers left bound by a drag (C9) -/

/-- C9, at the failing input: a drag started on a page with no handler on
`body` and ended by a release (confirmed or not) or by Escape leaves one
`keyup` handler bound, while `mousemove` and `mouseup` are unbound. -/
theorem drag_exit_leaves_keyup :
    ∃ ui d, mousedown idleUI 1 = some (ui, d) ∧
      ui.body = ⟨1, 1, 1, 1⟩ ∧
      (mouseup ui d false).1.body = ⟨0, 0, 1, 0⟩ ∧
      (mouseup ui { d with targetRow := some 2 } true).1.body = ⟨0, 0, 1, 0⟩ ∧
      (keyup ui d 27).body = ⟨0, 0, 1, 0⟩ := by
  refine ⟨_, _, rfl, ?_, ?_, ?_, ?_⟩ <;> decide

/-! ## Tables during a drag -/

theorem dragKept_refl (t : Table) : DragKept t t :=
  ⟨rfl, fun _ r h => ⟨r, h, rfl, id⟩⟩

theorem dragKept_trans {t t' t'' : Table} (h : DragKept t t') (h' : DragKept t' t'') :
    DragKept t t'' := by
  refine ⟨h'.1.trans h.1, fun i r hr => ?_⟩
  obtain ⟨r1, h1, e1, v1⟩ := h.2 i r hr
  obtain ⟨r2, h2, e2, v2⟩ := h'.2 i r1 h1
  refine ⟨r2, h2, ?_, fun v => v2 (v1 v)⟩
  rw [e2, e1]

theorem dragKept_skel {t t' : Table} (h : DragKept t t') : Skel (fun _ => true) t t' :=
  ⟨h.1, fun i r hr => by
    obtain ⟨r', h1, e, _⟩ := h.2 i r hr
    exact ⟨r', h1, by rw [e], by rw [e], rfl⟩⟩

theorem dragKept_fuel {t t' : Table} (h : DragKept t t') {rk : String → Nat} {fuel : Nat}
    (hf : ∀ r ∈ t, rk r.node < fuel) : ∀ r ∈ t', rk r.node < fuel := by
  intro r' hr'
  obtain ⟨i, hi⟩ := List.mem_iff_getElem?.1 hr'
  have hlt : i < t.length := by
    have := (List.getElem?_eq_some.1 hi).1
    rw [h.1] at this; exact this
  obtain ⟨r1, h1, e, _⟩ := h.2 i t[i] (List.getElem?_eq_getElem hlt)
  rw [hi] at h1; cases h1
  have hn : r'.node = t[i].node := by rw [e]
  rw [hn]
  exact hf t[i] (List.getElem_mem hlt)

theorem dragKept_modifyAt (f : Row → Row)
    (hf : ∀ r, f r = { r with hidden := (f r).hidden, background := (f r).background })
    (hv : ∀ r, r.hidden = false → (f r).hidden = false) (is : List Nat) (t : Table) :
    DragKept t (modifyAt f is t) := by
  refine ⟨length_modifyAt f is t, fun i r hr => ?_⟩
  rw [getElem?_modifyAt, hr]
  by_cases hi : i ∈ is
  · exact ⟨f r, by simp [hi], hf r, hv r⟩
  · exact ⟨r, by simp [hi], rfl, id⟩

theorem expand_dragKept (rk : String → Nat) (fuel : Nat) (t : Table) (x : String)
    (ha : Acyclic rk t) (hfuel : rk x < fuel) :
    ∃ t', expand fuel t x = some t' ∧ DragKept t t' := by
  obtain ⟨t', h1, s1⟩ := walk_spec (fun r => r.expanded) (fun r => { r with hidden := false })
    (fun _ => ⟨rfl, rfl, rfl⟩) (fun _ => rfl) rk fuel t x ha hfuel
  refine ⟨t', by rw [expand_eq_walk]; exact h1, s1.1, fun i r hr => ?_⟩
  by_cases hv : Reach (fun r => r.expanded) t x i
  · exact ⟨_, (s1.2 i r hr).1 hv, rfl, fun _ => rfl⟩
  · exact ⟨r, (s1.2 i r hr).2 hv, rfl, id⟩

theorem mousemove_row_kept {F : Type} (A : Arith F) (rk : String → Nat) (fuel : Nat)
    (L : Layout F) (pageY rowHeight : F) (node : Node) (s : Table × Option Nat × Bool) (i : Nat)
    (ha : Acyclic rk s.1) (hfuel : ∀ r ∈ s.1, rk r.node < fuel) (hi : i < s.1.length) :
    ∃ s', mousemove_row A fuel L pageY rowHeight node s i = some s' ∧ DragKept s.1 s'.1 := by
  unfold mousemove_row
  split_ifs with h1 h2 h3
  · exact ⟨_, rfl, dragKept_refl _⟩
  · exact ⟨_, rfl, dragKept_refl _⟩
  · have hr : s.1[i]? = some s.1[i] := List.getElem?_eq_getElem hi
    simp only [Node.new, hr, is_collapsed]
    split_ifs with hc
    · obtain ⟨t', h, hk⟩ := expand_dragKept rk fuel s.1 s.1[i].node ha
        (hfuel _ (List.getElem_mem hi))
      exact ⟨(t', some i, true), by rw [h]; rfl, hk⟩
    · exact ⟨_, rfl, dragKept_refl _⟩
  · exact ⟨s, rfl, dragKept_refl _⟩

theorem mousemove_fold_kept {F : Type} (A : Arith F) (rk : String → Nat) (fuel : Nat)
    (L : Layout F) (pageY rowHeight : F) (node : Node) (t0 : Table) (ha : Acyclic rk t0) (hfuel : ∀ r ∈ t0, rk r.node < fuel) :
    ∀ (l : List Nat) (s : Table × Option Nat × Bool), (∀ j ∈ l, j < t0.length) →
      DragKept t0 s.1 →
      ∃ s', l.foldlM (mousemove_row A fuel L pageY rowHeight node) s = some s' ∧
        DragKept t0 s'.1 := by
  intro l
  induction l with
  | nil => intro s _ hs; exact ⟨s, rfl, hs⟩
  | cons j l ih =>
    intro s hl hs
    obtain ⟨s1, h1, k1⟩ := mousemove_row_kept A rk fuel L pageY rowHeight node s j
      (skel_acyclic (dragKept_skel hs) ha) (dragKept_fuel hs hfuel)
      (by rw [hs.1]; exact hl j (List.mem_cons_self _ _))
    obtain ⟨s', h2, k2⟩ := ih s1 (fun k hk => hl k (List.mem_cons_of_mem _ hk))
      (dragKept_trans hs k1)
    refine ⟨s', ?_, k2⟩
    simp only [List.foldlM_cons, h1, Option.bind_eq_bind, Option.some_bind]
    exact h2

theorem mousemove_kept {F : Type} (A : Arith F) (rk : String → Nat) (fuel : Nat)
    (L : Layout F) (pageY : F) (t : Table) (d : Drag) (ha : Acyclic rk t) (hfuel : ∀ r ∈ t, rk r.node < fuel) :
    ∃ t' d', mousemove A fuel L pageY t d = some (t', d') ∧ DragKept t t' ∧ d'.node = d.node := by
  obtain ⟨s', h, k⟩ := mousemove_fold_kept A rk fuel L pageY (L.height t d.node.elem) d.node t ha
    hfuel (List.range t.length) (t, d.targetRow, d.as_child)
    (fun j hj => List.mem_range.1 hj) (dragKept_refl t)
  refine ⟨s'.1, { d with targetRow := s'.2.1, as_child := s'.2.2 }, ?_, k, rfl⟩
  unfold mousemove
  simp only [h, Option.map_some']

theorem drag_moves_kept {F : Type} (A : Arith F) (rk : String → Nat) (fuel : Nat)
    (L : Layout F) (t0 : Table)
    (ha : Acyclic rk t0) (hfuel : ∀ r ∈ t0, rk r.node < fuel) :
    ∀ (moves : List F) (t : Table) (d : Drag), DragKept t0 t →
      ∃ t' d', drag_moves A fuel L moves t d = some (t', d') ∧ DragKept t0 t' ∧
        d'.node = d.node := by
  intro moves
  induction moves with
  | nil => intro t d ht; exact ⟨t, d, rfl, ht, rfl⟩
  | cons y ys ih =>
    intro t d ht
    obtain ⟨t1, d1, h1, k1, n1⟩ := mousemove_kept A rk fuel L y t d
      (skel_acyclic (dragKept_skel ht) ha) (dragKept_fuel ht hfuel)
    obtain ⟨t', d', h2, k2, n2⟩ := ih t1 d1 (dragKept_trans ht k1)
    refine ⟨t', d', ?_, k2, n2.trans n1⟩
    simp only [drag_moves, h1]
    exact h2

/-! ## The target of a pointer move (C8) -/

theorem mousemove_row_skip {F : Type} (A : Arith F) (fuel : Nat) (L : Layout F)
    (pageY rowHeight : F) (node : Node) (s : Table × Option Nat × Bool) (j : Nat)
    (hsrc : over_same_node A L s.1 rowHeight pageY node = false)
    (h1 : over_top_half A L s.1 rowHeight pageY j = false)
    (h2 : over_bottom_half A L s.1 rowHeight pageY j = false) :
    mousemove_row A fuel L pageY rowHeight node s j = some s := by
  simp [mousemove_row, hsrc, h1, h2]

theorem mousemove_fold_skip {F : Type} (A : Arith F) (fuel : Nat) (L : Layout F)
    (pageY rowHeight : F) (node : Node) (s : Table × Option Nat × Bool)
    (hsrc : over_same_node A L s.1 rowHeight pageY node = false) :
    ∀ (l : List Nat),
      (∀ j ∈ l, over_top_half A L s.1 rowHeight pageY j = false ∧
        over_bottom_half A L s.1 rowHeight pageY j = false) →
      l.foldlM (mousemove_row A fuel L pageY rowHeight node) s = some s := by
  intro l
  induction l with
  | nil => intro _; rfl
  | cons j l ih =>
    intro hl
    simp only [List.foldlM_cons,
      mousemove_row_skip A fuel L pageY rowHeight node s j hsrc
        (hl j (List.mem_cons_self _ _)).1 (hl j (List.mem_cons_self _ _)).2,
      Option.bind_eq_bind, Option.some_bind]
    exact ih (fun k hk => hl k (List.mem_cons_of_mem _ hk))

theorem mousemove_row_same {F : Type} (A : Arith F) (fuel : Nat) (L : Layout F)
    (pageY rowHeight : F) (node : Node) (s : Table × Option Nat × Bool) (j : Nat) (r : Row)
    (hr : s.1[j]? = some r)
    (h : r.collapsed = true → over_bottom_half A L s.1 rowHeight pageY j = false) :
    ∃ s', mousemove_row A fuel L pageY rowHeight node s j = some s' ∧ s'.1 = s.1 := by
  unfold mousemove_row
  split_ifs with h1 h2 h3
  · exact ⟨_, rfl, rfl⟩
  · exact ⟨_, rfl, rfl⟩
  · have hc : r.collapsed = false := by
      cases hc : r.collapsed with
      | false => rfl
      | true => rw [h hc] at h3; cases h3
    simp only [Node.new, hr, is_collapsed, hc]
    exact ⟨_, rfl, rfl⟩
  · exact ⟨s, rfl, rfl⟩

theorem mousemove_fold_same {F : Type} (A : Arith F) (fuel : Nat) (L : Layout F)
    (pageY rowHeight : F) (node : Node) (t : Table) :
    ∀ (l : List Nat) (s : Table × Option Nat × Bool), s.1 = t →
      (∀ j ∈ l, ∃ r, t[j]? = some r ∧
        (r.collapsed = true → over_bottom_half A L t rowHeight pageY j = false)) →
      ∃ s', l.foldlM (mousemove_row A fuel L pageY rowHeight node) s = some s' ∧ s'.1 = t := by
  intro l
  induction l with
  | nil => intro s hs _; exact ⟨s, rfl, hs⟩
  | cons j l ih =>
    intro s hs hl
    obtain ⟨r, hr, hb⟩ := hl j (List.mem_cons_self _ _)
    obtain ⟨s1, h1, e1⟩ := mousemove_row_same A fuel L pageY rowHeight node s j r
      (by rw [hs]; exact hr) (by rw [hs]; exact hb)
    obtain ⟨s', h2, e2⟩ := ih s1 (e1.trans hs) (fun k hk => hl k (List.mem_cons_of_mem _ hk))
    refine ⟨s', ?_, e2⟩
    simp only [List.foldlM_cons, h1, Option.bind_eq_bind, Option.some_bind]
    exact h2

theorem range_split (n i : Nat) (hi : i < n) :
    List.range n = List.range i ++ i :: List.range' (i + 1) (n - i - 1) := by
  have h1 : n = (n - i - 1 + 1) + i := by omega
  rw [List.range_eq_range', List.range_eq_range']
  conv_lhs => rw [h1, ← List.range'_append_1 0 i (n - i - 1 + 1)]
  rw [List.range'_succ]
  simp

/-- The run of the `mousemove` handler cut at the row at position `i`: the
rows before it, the row, the rows after it. -/
theorem mousemove_split {F : Type} (A : Arith F) (fuel : Nat) (L : Layout F) (pageY : F)
    (t : Table) (d : Drag) (i : Nat) (s s1 s2 : Table × Option Nat × Bool) (hi : i < t.length)
    (hpre : (List.range i).foldlM (mousemove_row A fuel L pageY (L.height t d.node.elem) d.node)
      (t, d.targetRow, d.as_child) = some s)
    (hstep : mousemove_row A fuel L pageY (L.height t d.node.elem) d.node s i = some s1)
    (hpost : (List.range' (i + 1) (t.length - i - 1)).foldlM
      (mousemove_row A fuel L pageY (L.height t d.node.elem) d.node) s1 = some s2) :
    mousemove A fuel L pageY t d =
      some (s2.1, { d with targetRow := s2.2.1, as_child := s2.2.2 }) := by
  unfold mousemove
  simp only [range_split t.length i hi, List.foldlM_append, List.foldlM_cons, hpre,
    Option.bind_eq_bind, Option.some_bind, hstep, hpost, Option.map_some']

/-- The run of the `mousemove` handler when the row at position `i` is the
last one for which a test of the handler holds: the event ends in the state
that row sets. -/
theorem mousemove_last {F : Type} (A : Arith F) (fuel : Nat) (L : Layout F) (pageY : F)
    (t : Table) (d : Drag) (i : Nat) (s s1 : Table × Option Nat × Bool) (hi : i < t.length)
    (hpre : (List.range i).foldlM (mousemove_row A fuel L pageY (L.height t d.node.elem) d.node)
      (t, d.targetRow, d.as_child) = some s)
    (hstep : mousemove_row A fuel L pageY (L.height t d.node.elem) d.node s i = some s1)
    (hsrc1 : over_same_node A L s1.1 (L.height t d.node.elem) pageY d.node = false)
    (hafter : ∀ j, i < j → j < t.length →
      over_top_half A L s1.1 (L.height t d.node.elem) pageY j = false ∧
      over_bottom_half A L s1.1 (L.height t d.node.elem) pageY j = false) :
    mousemove A fuel L pageY t d =
      some (s1.1, { d with targetRow := s1.2.1, as_child := s1.2.2 }) :=
  mousemove_split A fuel L pageY t d i s s1 s1 hi hpre hstep
    (mousemove_fold_skip A fuel L pageY _ d.node s1 hsrc1 _
      (fun j hj => by
        have := List.mem_range'_1.1 hj
        exact hafter j (by omega) (by omega)))

theorem exact_same_node (L : Layout ℚ) (t : Table) (h y : ℚ) (node : Node) :
    over_same_node exactArith L t h y node =
      decide (L.top t node.elem ≤ y ∧ y ≤ L.top t node.elem + h) := by
  simp only [over_same_node, exactArith, Bool.decide_and]

theorem exact_top_half (L : Layout ℚ) (t : Table) (h y : ℚ) (j : Nat) :
    over_top_half exactArith L t h y j =
      decide (L.top t j ≤ y ∧ y ≤ L.top t j + h / 2) := by
  simp only [over_top_half, exactArith, Bool.decide_and]

theorem exact_bottom_half (L : Layout ℚ) (t : Table) (h y : ℚ) (j : Nat) :
    over_bottom_half exactArith L t h y j =
      decide (L.top t j + h / 2 ≤ y ∧ y ≤ L.top t j + h) := by
  simp only [over_bottom_half, exactArith, Bool.decide_and]

/-- C8 fails as stated, with `n4` dragged over `flatTable`.  At 140, the
lower edge of the band of `n2`, the test of the bottom half of `n2` holds and
that of the band of `n4` does not, yet the event ends with target `n3` in
sibling mode: the band of `n3` starts at 140 and `n3` is visited later.  At
130, the middle line of the band of `n2`, the test of the bottom half of `n2`
holds, yet the event ends with target `n2` in sibling mode: the test of the
top half holds too and comes first. -/
theorem mousemove_boundary_counterexample :
    over_same_node exactArith stackLayout flatTable (stackLayout.height flatTable 3) 140
      dragN4.node = false ∧
    over_bottom_half exactArith stackLayout flatTable (stackLayout.height flatTable 3) 140 1
      = true ∧
    mousemove exactArith 4 stackLayout 140 flatTable dragN4 =
      some (flatTable, { dragN4 with targetRow := some 2, as_child := false }) ∧
    over_same_node exactArith stackLayout flatTable (stackLayout.height flatTable 3) 130
      dragN4.node = false ∧
    over_bottom_half exactArith stackLayout flatTable (stackLayout.height flatTable 3) 130 1
      = true ∧
    mousemove exactArith 4 stackLayout 130 flatTable dragN4 =
      some (flatTable, { dragN4 with targetRow := some 1, as_child := false }) := by
  have ht0 : stackLayout.top flatTable 0 = 100 := by
    norm_num [stackLayout, flatTable, mkRow, markExpanded]
  have ht1 : stackLayout.top flatTable 1 = 120 := by
    norm_num [stackLayout, flatTable, mkRow, markExpanded]
  have ht2 : stackLayout.top flatTable 2 = 140 := by
    norm_num [stackLayout, flatTable, mkRow, markExpanded]
  have ht3 : stackLayout.top flatTable 3 = 160 := by
    norm_num [stackLayout, flatTable, mkRow, markExpanded]
  have hh : stackLayout.height flatTable 3 = 20 := rfl
  have hn1 : Node.new flatTable 1 = some ⟨1, "n2", "n1", 2, 0⟩ := by decide
  have hc1 : is_collapsed flatTable ⟨1, "n2", "n1", 2, 0⟩ = false := by decide
  have hsame : ∀ y : ℚ, y < 160 →
      over_same_node exactArith stackLayout flatTable 20 y dragN4.node = false := by
    intro y hy
    rw [exact_same_node, decide_eq_false_iff_not]
    show ¬ (stackLayout.top flatTable 3 ≤ y ∧ y ≤ stackLayout.top flatTable 3 + 20)
    rw [ht3]
    intro h
    linarith [h.1]
  have htop : ∀ (y : ℚ) (j : Nat), over_top_half exactArith stackLayout flatTable 20 y j =
      decide (stackLayout.top flatTable j ≤ y ∧ y ≤ stackLayout.top flatTable j + 20 / 2) :=
    fun y j => exact_top_half stackLayout flatTable 20 y j
  have hbot : ∀ (y : ℚ) (j : Nat), over_bottom_half exactArith stackLayout flatTable 20 y j =
      decide (stackLayout.top flatTable j + 20 / 2 ≤ y ∧ y ≤ stackLayout.top flatTable j + 20) :=
    fun y j => exact_bottom_half stackLayout flatTable 20 y j
  refine ⟨hsame 140 (by norm_num), by rw [hh, hbot, ht1]; norm_num, ?_,
    hsame 130 (by norm_num), by rw [hh, hbot, ht1]; norm_num, ?_⟩
  · refine mousemove_last exactArith 4 stackLayout 140 flatTable dragN4 2
      (flatTable, some 1, true) (flatTable, some 2, false) (by decide) ?_ ?_
      (hsame 140 (by norm_num)) ?_
    · have h0 : mousemove_row exactArith 4 stackLayout 140 20 dragN4.node
          (flatTable, none, false) 0 = some (flatTable, none, false) :=
        mousemove_row_skip exactArith 4 stackLayout 140 20 dragN4.node _ 0
          (hsame 140 (by norm_num)) (by rw [htop, ht0]; norm_num) (by rw [hbot, ht0]; norm_num)
      have h1 : mousemove_row exactArith 4 stackLayout 140 20 dragN4.node
          (flatTable, none, false) 1 = some (flatTable, some 1, true) := by
        have a := hsame 140 (by norm_num)
        have b : over_top_half exactArith stackLayout flatTable 20 140 1 = false := by
          rw [htop, ht1]; norm_num
        have c : over_bottom_half exactArith stackLayout flatTable 20 140 1 = true := by
          rw [hbot, ht1]; norm_num
        simp [mousemove_row, a, b, c, hn1, hc1]
      show [0, 1].foldlM (mousemove_row exactArith 4 stackLayout 140 20 dragN4.node)
        (flatTable, none, false) = some (flatTable, some 1, true)
      simp only [List.foldlM_cons, List.foldlM_nil, h0, h1, Option.bind_eq_bind,
        Option.some_bind, Option.pure_def]
    · have a := hsame 140 (by norm_num)
      have b : over_top_half exactArith stackLayout flatTable 20 140 2 = true := by
        rw [htop, ht2]; norm_num
      show mousemove_row exactArith 4 stackLayout 140 20 dragN4.node
        (flatTable, some 1, true) 2 = some (flatTable, some 2, false)
      simp [mousemove_row, a, b]
    · intro j hij hj
      have hj' : j < 4 := hj
      interval_cases j
      exact ⟨by show over_top_half exactArith stackLayout flatTable 20 140 3 = false
                rw [htop, ht3]; norm_num,
             by show over_bottom_half exactArith stackLayout flatTable 20 140 3 = false
                rw [hbot, ht3]; norm_num⟩
  · refine mousemove_last exactArith 4 stackLayout 130 flatTable dragN4 1
      (flatTable, none, false) (flatTable, some 1, false) (by decide) ?_ ?_
      (hsame 130 (by norm_num)) ?_
    · have h0 : mousemove_row exactArith 4 stackLayout 130 20 dragN4.node
          (flatTable, none, false) 0 = some (flatTable, none, false) :=
        mousemove_row_skip exactArith 4 stackLayout 130 20 dragN4.node _ 0
          (hsame 130 (by norm_num)) (by rw [htop, ht0]; norm_num) (by rw [hbot, ht0]; norm_num)
      show [0].foldlM (mousemove_row exactArith 4 stackLayout 130 20 dragN4.node)
        (flatTable, none, false) = some (flatTable, none, false)
      simp only [List.foldlM_cons, List.foldlM_nil, h0, Option.bind_eq_bind,
        Option.some_bind, Option.pure_def]
    · have a := hsame 130 (by norm_num)
      have b : over_top_half exactArith stackLayout flatTable 20 130 1 = true := by
        rw [htop, ht1]; norm_num
      show mousemove_row exactArith 4 stackLayout 130 20 dragN4.node
        (flatTable, none, false) 1 = some (flatTable, some 1, false)
      simp [mousemove_row, a, b]
    · intro j hij hj
      have hj' : j < 4 := hj
      interval_cases j
      · exact ⟨by show over_top_half exactArith stackLayout flatTable 20 130 2 = false
                  rw [htop, ht2]; norm_num,
               by show over_bottom_half exactArith stackLayout flatTable 20 130 2 = false
                  rw [hbot, ht2]; norm_num⟩
      · exact ⟨by show over_top_half exactArith stackLayout flatTable 20 130 3 = false
                  rw [htop, ht3]; norm_num,
               by show over_bottom_half exactArith stackLayout flatTable 20 130 3 = false
                  rw [hbot, ht3]; norm_num⟩

/-- C8 (as amended): on a table without cycles, a pointer-move event returns,
and for the row X at position `i` and the table `s.1` as it stands when the
loop of the handler reaches X (the table at the start of the event unless an
earlier collapsed row had the pointer over its bottom half, and always with
the rows, attributes and markers of the table at the start):

* if the test of the dragged row's own band fails and X is the last row for
  which a test of the handler holds, the event ends with target X in sibling
  mode when the test of the top half of X holds, and with target X in child
  mode when it fails, the test of the bottom half holds and X is not
  collapsed;
* if the test of the dragged row's own band and that of the top half of X
  fail, that of the bottom half of X holds and X is collapsed, `expand()`
  runs on X, the direct children of X are shown at the end of the event, and
  the event ends with target X in child mode provided that, once they are
  shown, the test of the dragged row's own band still fails and no test holds
  for a later row. -/
theorem mousemove_target {F : Type} (A : Arith F) (rk : String → Nat) (fuel : Nat)
    (L : Layout F) (pageY : F) (t : Table) (d : Drag) (i : Nat) (X : Row)
    (hX : t[i]? = some X) (ha : Acyclic rk t) (hfuel : ∀ r ∈ t, rk r.node < fuel) :
    ∃ s : Table × Option Nat × Bool,
      (List.range i).foldlM (mousemove_row A fuel L pageY (L.height t d.node.elem) d.node)
        (t, d.targetRow, d.as_child) = some s ∧
      DragKept t s.1 ∧
      ((∀ (j : Nat) (r : Row), j < i → t[j]? = some r → r.collapsed = true →
          over_bottom_half A L t (L.height t d.node.elem) pageY j = false) → s.1 = t) ∧
      (over_same_node A L s.1 (L.height t d.node.elem) pageY d.node = false →
        (∀ j, i < j → j < t.length →
          over_top_half A L s.1 (L.height t d.node.elem) pageY j = false ∧
          over_bottom_half A L s.1 (L.height t d.node.elem) pageY j = false) →
        (over_top_half A L s.1 (L.height t d.node.elem) pageY i = true →
          mousemove A fuel L pageY t d =
            some (s.1, { d with targetRow := some i, as_child := false })) ∧
        (over_top_half A L s.1 (L.height t d.node.elem) pageY i = false →
          over_bottom_half A L s.1 (L.height t d.node.elem) pageY i = true →
          X.collapsed = false →
          mousemove A fuel L pageY t d =
            some (s.1, { d with targetRow := some i, as_child := true }))) ∧
      (over_same_node A L s.1 (L.height t d.node.elem) pageY d.node = false →
        over_top_half A L s.1 (L.height t d.node.elem) pageY i = false →
        over_bottom_half A L s.1 (L.height t d.node.elem) pageY i = true →
        X.collapsed = true →
        ∃ t', expand fuel s.1 X.node = some t' ∧
          (∃ t2 d2, mousemove A fuel L pageY t d = some (t2, d2) ∧
            ∀ c ∈ children t X.node, ∃ rc, t2[c]? = some rc ∧ rc.hidden = false) ∧
          (over_same_node A L t' (L.height t d.node.elem) pageY d.node = false →
            (∀ j, i < j → j < t.length →
              over_top_half A L t' (L.height t d.node.elem) pageY j = false ∧
              over_bottom_half A L t' (L.height t d.node.elem) pageY j = false) →
            mousemove A fuel L pageY t d =
              some (t', { d with targetRow := some i, as_child := true }))) := by
  have hi : i < t.length := (List.getElem?_eq_some.1 hX).1
  obtain ⟨s, hpre, hk⟩ := mousemove_fold_kept A rk fuel L pageY (L.height t d.node.elem) d.node
    t ha hfuel (List.range i) (t, d.targetRow, d.as_child)
    (fun j hj => Nat.lt_trans (List.mem_range.1 hj) hi) (dragKept_refl t)
  obtain ⟨X', hX', eX', _⟩ := hk.2 i X hX
  have hcX : X'.collapsed = X.collapsed := by rw [eX']
  have hnX : X'.node = X.node := by rw [eX']
  have has : Acyclic rk s.1 := skel_acyclic (dragKept_skel hk) ha
  have hfs : ∀ r ∈ s.1, rk r.node < fuel := dragKept_fuel hk hfuel
  refine ⟨s, hpre, hk, fun hsame => ?_, fun hsrc hafter => ⟨fun htop => ?_, fun hnt hbot hc => ?_⟩,
    fun hsrc hnt hbot hc => ?_⟩
  · obtain ⟨s', h', e'⟩ := mousemove_fold_same A fuel L pageY (L.height t d.node.elem) d.node
      t (List.range i) (t, d.targetRow, d.as_child) rfl
      (fun j hj => by
        have hj' : j < i := List.mem_range.1 hj
        have hjt : j < t.length := Nat.lt_trans hj' hi
        exact ⟨t[j], List.getElem?_eq_getElem hjt,
          hsame j t[j] hj' (List.getElem?_eq_getElem hjt)⟩)
    rw [hpre] at h'
    cases h'
    exact e'
  · exact mousemove_last A fuel L pageY t d i s (s.1, some i, false) hi hpre
      (by simp [mousemove_row, hsrc, htop]) hsrc hafter
  · exact mousemove_last A fuel L pageY t d i s (s.1, some i, true) hi hpre
      (by simp [mousemove_row, hsrc, hnt, hbot, Node.new, hX', is_collapsed, hcX, hc])
      hsrc hafter
  · obtain ⟨t', h1, s1⟩ := walk_spec (fun r => r.expanded) (fun r => { r with hidden := false })
      (fun _ => ⟨rfl, rfl, rfl⟩) (fun _ => rfl) rk fuel s.1 X.node has
      (hfuel X (List.getElem?_mem hX))
    rw [← expand_eq_walk] at h1
    have hstep : mousemove_row A fuel L pageY (L.height t d.node.elem) d.node s i =
        some (t', some i, true) := by
      simp [mousemove_row, hsrc, hnt, hbot, Node.new, hX', is_collapsed, hcX, hc, hnX, h1]
    have hshown : ∀ c ∈ children t X.node, ∃ rc, t'[c]? = some rc ∧ rc.hidden = false := by
      intro c hc'
      rw [← skel_children (dragKept_skel hk)] at hc'
      obtain ⟨rc, hrc, hp⟩ := mem_children.1 hc'
      exact ⟨_, (s1.2 c rc hrc).1 (Reach.child hrc hp), rfl⟩
    obtain ⟨t'', h1', hk'⟩ := expand_dragKept rk fuel s.1 X.node has
      (hfuel X (List.getElem?_mem hX))
    rw [h1] at h1'
    cases h1'
    have hkt : DragKept t t' := dragKept_trans hk hk'
    obtain ⟨s2, hpost, hk2⟩ := mousemove_fold_kept A rk fuel L pageY (L.height t d.node.elem)
      d.node t' (skel_acyclic (dragKept_skel hkt) ha) (dragKept_fuel hkt hfuel)
      (List.range' (i + 1) (t.length - i - 1)) (t', some i, true)
      (fun j hj => by
        have := List.mem_range'_1.1 hj
        rw [hkt.1]
        omega) (dragKept_refl t')
    refine ⟨t', h1, ⟨s2.1, { d with targetRow := s2.2.1, as_child := s2.2.2 },
      mousemove_split A fuel L pageY t d i s (t', some i, true) s2 hi hpre hstep hpost,
      fun c hc' => ?_⟩, fun hsrc1 hafter1 => ?_⟩
    · obtain ⟨rc, hrc, hv⟩ := hshown c hc'
      obtain ⟨rc2, hrc2, _, hv2⟩ := hk2.2 c rc hrc
      exact ⟨rc2, hrc2, hv2 hv⟩
    · exact mousemove_last A fuel L pageY t d i s (t', some i, true) hi hpre hstep hsrc1 hafter1

/-- Witness of C8 as amended, with `n4` dragged.  Over `flatTable` at 120, the
lower edge of the band of `n1` and the upper edge of that of `n2`: `n2` is the
last row for which a test holds, the test of its top half, and the event ends
with target `n2` in sibling mode.  Over `nestedTable` at 135, below the middle
of the band of the collapsed row `n2`: the hidden child `n3` of `n2` is shown
and the event ends with target `n2` in child mode. -/
theorem mousemove_target_witness :
    (over_bottom_half exactArith stackLayout flatTable (stackLayout.height flatTable 3) 120 0
        = true ∧
      over_top_half exactArith stackLayout flatTable (stackLayout.height flatTable 3) 120 1
        = true ∧
      mousemove exactArith 4 stackLayout 120 flatTable dragN4 =
        some (flatTable, { dragN4 with targetRow := some 1, as_child := false })) ∧
    (over_bottom_half exactArith stackLayout nestedTable (stackLayout.height nestedTable 3) 135 1
        = true ∧
      nestedTable[1]?.map (fun r => r.collapsed) = some true ∧
      nestedTable[2]?.map (fun r => r.hidden) = some true ∧
      mousemove exactArith 4 stackLayout 135 nestedTable dragN4 =
        some ([mkRow "n1" "" 1 2, mkRow "n2" "n1" 2 1, mkRow "n3" "n2" 3 0,
               mkRow "n4" "n1" 2 0],
              { dragN4 with targetRow := some 1, as_child := true })) := by
  constructor
  · have ht0 : stackLayout.top flatTable 0 = 100 := by
      norm_num [stackLayout, flatTable, mkRow, markExpanded]
    have ht1 : stackLayout.top flatTable 1 = 120 := by
      norm_num [stackLayout, flatTable, mkRow, markExpanded]
    have ht2 : stackLayout.top flatTable 2 = 140 := by
      norm_num [stackLayout, flatTable, mkRow, markExpanded]
    have ht3 : stackLayout.top flatTable 3 = 160 := by
      norm_num [stackLayout, flatTable, mkRow, markExpanded]
    have hb0 : over_bottom_half exactArith stackLayout flatTable 20 120 0 = true := by
      rw [exact_bottom_half, ht0]; norm_num
    have htop : over_top_half exactArith stackLayout flatTable 20 120 1 = true := by
      rw [exact_top_half, ht1]; norm_num
    have hsrc : over_same_node exactArith stackLayout flatTable 20 120 dragN4.node = false := by
      rw [exact_same_node]
      show decide (stackLayout.top flatTable 3 ≤ 120 ∧ 120 ≤ stackLayout.top flatTable 3 + 20)
        = false
      rw [ht3]; norm_num
    obtain ⟨s, _, _, hsame, hbr, _⟩ := mousemove_target exactArith chainRank 4 stackLayout 120
      flatTable dragN4 1 (markExpanded (mkRow "n2" "n1" 2 0)) rfl (by unfold Acyclic; decide)
      (by decide)
    have hs : s.1 = flatTable := hsame (fun j r _ hr hc => by
      have hall : ∀ x ∈ flatTable, x.collapsed = false := by decide
      rw [hall r (List.getElem?_mem hr)] at hc
      cases hc)
    rw [hs] at hbr
    refine ⟨hb0, htop, (hbr hsrc ?_).1 htop⟩
    intro j hij hj
    have hj' : j < 4 := hj
    interval_cases j
    · exact ⟨by show over_top_half exactArith stackLayout flatTable 20 120 2 = false
                rw [exact_top_half, ht2]; norm_num,
             by show over_bottom_half exactArith stackLayout flatTable 20 120 2 = false
                rw [exact_bottom_half, ht2]; norm_num⟩
    · exact ⟨by show over_top_half exactArith stackLayout flatTable 20 120 3 = false
                rw [exact_top_half, ht3]; norm_num,
             by show over_bottom_half exactArith stackLayout flatTable 20 120 3 = false
                rw [exact_bottom_half, ht3]; norm_num⟩
  · have ht0 : stackLayout.top nestedTable 0 = 100 := by
      norm_num [stackLayout, nestedTable, mkRow]
    have ht1 : stackLayout.top nestedTable 1 = 120 := by
      norm_num [stackLayout, nestedTable, mkRow]
    have ht3 : stackLayout.top nestedTable 3 = 140 := by
      norm_num [stackLayout, nestedTable, mkRow]
    have hu2 : stackLayout.top [mkRow "n1" "" 1 2, mkRow "n2" "n1" 2 1, mkRow "n3" "n2" 3 0,
        mkRow "n4" "n1" 2 0] 2 = 140 := by
      norm_num [stackLayout, mkRow]
    have hu3 : stackLayout.top [mkRow "n1" "" 1 2, mkRow "n2" "n1" 2 1, mkRow "n3" "n2" 3 0,
        mkRow "n4" "n1" 2 0] 3 = 160 := by
      norm_num [stackLayout, mkRow]
    have hbot : over_bottom_half exactArith stackLayout nestedTable 20 135 1 = true := by
      rw [exact_bottom_half, ht1]; norm_num
    have hnt : over_top_half exactArith stackLayout nestedTable 20 135 1 = false := by
      rw [exact_top_half, ht1]; norm_num
    have hsrc : over_same_node exactArith stackLayout nestedTable 20 135 dragN4.node = false := by
      rw [exact_same_node]
      show decide (stackLayout.top nestedTable 3 ≤ 135 ∧ 135 ≤ stackLayout.top nestedTable 3 + 20)
        = false
      rw [ht3]; norm_num
    obtain ⟨s, _, _, hsame, _, hcol⟩ := mousemove_target exactArith chainRank 4 stackLayout 135
      nestedTable dragN4 1 (mkRow "n2" "n1" 2 1) rfl (by unfold Acyclic; decide) (by decide)
    have hs : s.1 = nestedTable := hsame (fun j r hj _ _ => by
      have hj0 : j = 0 := by omega
      subst hj0
      show over_bottom_half exactArith stackLayout nestedTable 20 135 0 = false
      rw [exact_bottom_half, ht0]; norm_num)
    rw [hs] at hcol
    obtain ⟨t', h1, _, hfinal⟩ := hcol hsrc hnt hbot rfl
    have h2 : expand 4 nestedTable "n2" =
        some [mkRow "n1" "" 1 2, mkRow "n2" "n1" 2 1, mkRow "n3" "n2" 3 0,
          mkRow "n4" "n1" 2 0] := by
      decide
    have ht : t' =
        [mkRow "n1" "" 1 2, mkRow "n2" "n1" 2 1, mkRow "n3" "n2" 3 0, mkRow "n4" "n1" 2 0] := by
      have : (mkRow "n2" "n1" 2 1).node = "n2" := rfl
      rw [this, h2] at h1
      exact (Option.some.inj h1).symm
    subst ht
    refine ⟨hbot, by decide, by decide, hfinal ?_ ?_⟩
    · rw [exact_same_node]
      show decide (stackLayout.top _ 3 ≤ 135 ∧ 135 ≤ stackLayout.top _ 3 + 20) = false
      rw [hu3]; norm_num
    · intro j hij hj
      have hj' : j < 4 := hj
      interval_cases j
      · exact ⟨by rw [exact_top_half, hu2]; norm_num [stackLayout],
               by rw [exact_bottom_half, hu2]; norm_num [stackLayout]⟩
      · exact ⟨by rw [exact_top_half, hu3]; norm_num [stackLayout],
               by rw [exact_bottom_half, hu3]; norm_num [stackLayout]⟩

/-! ## Restoration on page load (C10) -/

theorem sameButHidden_refl (t : Table) : SameButHidden t t :=
  ⟨rfl, fun _ r h => ⟨r, h, rfl⟩⟩

theorem sameButHidden_trans {t t' t'' : Table} (h : SameButHidden t t')
    (h' : SameButHidden t' t'') : SameButHidden t t'' := by
  refine ⟨h'.1.trans h.1, fun i r hr => ?_⟩
  obtain ⟨r1, h1, e1⟩ := h.2 i r hr
  obtain ⟨r2, h2, e2⟩ := h'.2 i r1 h1
  refine ⟨r2, h2, ?_⟩
  rw [e2, e1]

theorem sameButHidden_skel {t t' : Table} (h : SameButHidden t t') :
    Skel (fun _ => true) t t' :=
  ⟨h.1, fun i r hr => by
    obtain ⟨r', h1, e⟩ := h.2 i r hr
    exact ⟨r', h1, by rw [e], by rw [e], rfl⟩⟩

theorem sameButHidden_ids {t t' : Table} (h : SameButHidden t t') {r' : Row} (hr' : r' ∈ t') :
    ∃ r ∈ t, r'.id = r.id := by
  obtain ⟨i, hi⟩ := List.mem_iff_getElem?.1 hr'
  have hlt : i < t.length := by
    have := (List.getElem?_eq_some.1 hi).1
    rw [h.1] at this; exact this
  obtain ⟨r1, h1, e⟩ := h.2 i t[i] (List.getElem?_eq_getElem hlt)
  rw [hi] at h1; cases h1
  exact ⟨t[i], List.getElem_mem hlt, by rw [e]⟩

theorem expand_sameButHidden (rk : String → Nat) (fuel : Nat) (t : Table) (x : String)
    (ha : Acyclic rk t) (hfuel : rk x < fuel) :
    ∃ t', expand fuel t x = some t' ∧ SameButHidden t t' := by
  obtain ⟨t', h1, s1⟩ := walk_spec (fun r => r.expanded) (fun r => { r with hidden := false })
    (fun _ => ⟨rfl, rfl, rfl⟩) (fun _ => rfl) rk fuel t x ha hfuel
  refine ⟨t', by rw [expand_eq_walk]; exact h1, s1.1, fun i r hr => ?_⟩
  by_cases hv : Reach (fun r => r.expanded) t x i
  · exact ⟨_, (s1.2 i r hr).1 hv, rfl⟩
  · exact ⟨r, (s1.2 i r hr).2 hv, rfl⟩

theorem find_by_id_other (D : Document) (t : Table) (a : String)
    (h : ∀ r ∈ t, r.id ≠ a) : find_by_id D t a = D a := by
  have hnone : row_with_id t a = none := by
    unfold row_with_id
    rw [List.findIdx?_eq_none_iff]
    intro r hr
    simpa using h r hr
  simp only [find_by_id, hnone]

theorem ids_sameButHidden {t t' : Table} (h : SameButHidden t t') {a : String}
    (hno : ∀ r ∈ t, r.id ≠ a) : ∀ r ∈ t', r.id ≠ a := by
  intro r' hr'
  obtain ⟨r, hr, e⟩ := sameButHidden_ids h hr'
  rw [e]
  exact hno r hr

theorem ids_modifyAt (f : Row → Row) (hf : ∀ r, (f r).id = r.id) (is : List Nat) {t : Table}
    {a : String} (hno : ∀ r ∈ t, r.id ≠ a) : ∀ r ∈ modifyAt f is t, r.id ≠ a := by
  intro r' hr'
  obtain ⟨i, hi⟩ := List.mem_iff_getElem?.1 hr'
  rw [getElem?_modifyAt] at hi
  cases hr : t[i]? with
  | none => rw [hr] at hi; cases hi
  | some r =>
    rw [hr] at hi
    have hmem := hno r (List.getElem?_mem hr)
    by_cases hin : i ∈ is
    · simp only [Option.map_some', hin, if_true, Option.some.injEq] at hi
      rw [← hi, hf]
      exact hmem
    · simp only [Option.map_some', hin, if_false, Option.some.injEq] at hi
      rw [← hi]
      exact hmem

theorem restore_one_missing (D : Document) (rk : String → Nat) (fuel : Nat)
    (hfuel : rk "undefined" < fuel) (t : Table) (a : String) (found : Found)
    (ha : Acyclic rk t) (hno : ∀ r ∈ t, r.id ≠ a) (hD : D a = .ok found)
    (hrow : ∀ e, found ≠ .row e) :
    ∃ t1, expand fuel t "undefined" = some t1 ∧ SameButHidden t t1 ∧
      restore_one D fuel t a = .ok (modifyAt markExpanded (found_links found) t1) := by
  obtain ⟨t1, h1, s1⟩ := expand_sameButHidden rk fuel t "undefined" ha hfuel
  refine ⟨t1, h1, s1, ?_⟩
  have hn : found_node_id t found = "undefined" := by
    cases found with
    | row e => exact absurd rfl (hrow e)
    | nothing => rfl
    | element links => rfl
  simp only [restore_one, find_by_id_other D t a hno, hD, hn, h1]

theorem modifyAt_nil (f : Row → Row) (t : Table) : modifyAt f [] t = t := by
  apply List.ext_getElem?
  intro i
  rw [getElem?_modifyAt]
  cases t[i]? <;> simp

theorem restore_missing (D : Document) (rk : String → Nat) (fuel : Nat)
    (hfuel : rk "undefined" < fuel) :
    ∀ (ids : List String) (t : Table), Acyclic rk t →
      (∀ a ∈ ids, (∀ r ∈ t, r.id ≠ a) ∧ D a = .ok .nothing) →
      ∃ t', ids.foldlM (restore_one D fuel) t = .ok t' ∧ SameButHidden t t' := by
  intro ids
  induction ids with
  | nil => intro t _ _; exact ⟨t, rfl, sameButHidden_refl t⟩
  | cons a ids ih =>
    intro t ha hno
    obtain ⟨hna, hDa⟩ := hno a (List.mem_cons_self _ _)
    obtain ⟨t1, _, s1, hstep⟩ := restore_one_missing D rk fuel hfuel t a .nothing ha hna hDa
      (fun _ h => by cases h)
    rw [show found_links Found.nothing = [] from rfl, modifyAt_nil] at hstep
    obtain ⟨t', h2, s2⟩ := ih t1 (skel_acyclic (sameButHidden_skel s1) ha)
      (fun b hb => ⟨ids_sameButHidden s1 (hno b (List.mem_cons_of_mem _ hb)).1,
        (hno b (List.mem_cons_of_mem _ hb)).2⟩)
    refine ⟨t', ?_, sameButHidden_trans s1 s2⟩
    simp only [List.foldlM_cons, hstep]
    exact h2

/-- C10 fails as stated: with a text stored under the key of the tree that is
not valid JSON the restoration raises a `SyntaxError`, and with the JSON
object `{}` stored it raises a `TypeError`. -/
theorem restore_malformed_counterexample :
    restore (adminDocument 4) 4 "7" (storedPage .invalid) = .error .syntaxError ∧
    restore (adminDocument 4) 4 "7" (storedPage (.json .object)) = .error .typeError := by
  constructor <;> rfl

/-- C10 (as amended): the restoration completes and changes nothing when no
value is stored under the key of the tree or the stored JSON value is falsy
(`null`, `false`, `0`, the empty string).  It raises a `SyntaxError` for a
text that is not valid JSON and a `TypeError` for a truthy JSON value that is
not an array.  For a stored array, on a table without cycles: when every
string in it is the id of no row and the selector `'#' + elementId` finds no
element at all, the restoration completes and changes no marker; when the
first string for which the selector does not come back empty is one the
selector engine raises on, the restoration raises that error; and when one
string names an element that is no row, the others finding nothing, the
restoration completes and sets to expanded the marker of every row whose link
lies inside that element, the markers of the other rows being kept. -/
theorem restore_spec (D : Document) (rk : String → Nat) (fuel : Nat) (menu_content_id : String)
    (p : Page) (ha : Acyclic rk p.rows) (hfuel : rk "undefined" < fuel) :
    (p.session (expanded_key menu_content_id) = none →
      restore D fuel menu_content_id p = .ok p) ∧
    (∀ v, p.session (expanded_key menu_content_id) = some (.json v) → truthy v = false →
      restore D fuel menu_content_id p = .ok p) ∧
    (p.session (expanded_key menu_content_id) = some .invalid →
      restore D fuel menu_content_id p = .error .syntaxError) ∧
    (∀ v, p.session (expanded_key menu_content_id) = some (.json v) → truthy v = true →
      (∀ ids, v ≠ .array ids) → restore D fuel menu_content_id p = .error .typeError) ∧
    (∀ ids, p.session (expanded_key menu_content_id) = some (.json (.array ids)) →
      (∀ a ∈ ids, (∀ r ∈ p.rows, r.id ≠ a) ∧ D a = .ok .nothing) →
      ∃ p', restore D fuel menu_content_id p = .ok p' ∧ p'.session = p.session ∧
        SameButHidden p.rows p'.rows) ∧
    (∀ pre a post err,
      p.session (expanded_key menu_content_id) = some (.json (.array (pre ++ a :: post))) →
      (∀ b ∈ pre, (∀ r ∈ p.rows, r.id ≠ b) ∧ D b = .ok .nothing) →
      (∀ r ∈ p.rows, r.id ≠ a) → D a = .error err →
      restore D fuel menu_content_id p = .error err) ∧
    (∀ pre a post links,
      p.session (expanded_key menu_content_id) = some (.json (.array (pre ++ a :: post))) →
      (∀ b ∈ pre ++ post, (∀ r ∈ p.rows, r.id ≠ b) ∧ D b = .ok .nothing) →
      (∀ r ∈ p.rows, r.id ≠ a) → D a = .ok (.element links) →
      ∃ p', restore D fuel menu_content_id p = .ok p' ∧ p'.session = p.session ∧
        p'.rows.length = p.rows.length ∧
        ∀ (i : Nat) (r : Row), p.rows[i]? = some r →
          ∃ r', p'.rows[i]? = some r' ∧
            r' = { (if i ∈ links then markExpanded r else r) with hidden := r'.hidden }) := by
  refine ⟨fun h => ?_, fun v h hv => ?_, fun h => ?_, fun v h hv hna => ?_, fun ids h hno => ?_,
    fun pre a post err h hpre hna hD => ?_, fun pre a post links h hrest hna hD => ?_⟩
  · unfold expanded_key at h
    simp [restore, h, JSON_parse, truthy]
  · unfold expanded_key at h
    simp [restore, h, JSON_parse, hv]
  · unfold expanded_key at h
    simp [restore, h, JSON_parse]
  · unfold expanded_key at h
    cases v with
    | array ids => exact absurd rfl (hna ids)
    | null => simp [truthy] at hv
    | bool b => simp [restore, h, JSON_parse, hv]
    | number n => simp [restore, h, JSON_parse, hv]
    | string s => simp [restore, h, JSON_parse, hv]
    | object => simp [restore, h, JSON_parse, hv]
  · unfold expanded_key at h
    obtain ⟨t', h1, s1⟩ := restore_missing D rk fuel hfuel ids p.rows ha hno
    exact ⟨{ p with rows := t' }, by simp [restore, h, JSON_parse, truthy, h1], rfl, s1⟩
  · unfold expanded_key at h
    obtain ⟨t1, h1, s1⟩ := restore_missing D rk fuel hfuel pre p.rows ha hpre
    have hstep : restore_one D fuel t1 a = .error err := by
      simp only [restore_one, find_by_id_other D t1 a (ids_sameButHidden s1 hna), hD]
    have hfold : (pre ++ a :: post).foldlM (restore_one D fuel) p.rows = .error err := by
      rw [List.foldlM_append, h1]
      show (a :: post).foldlM (restore_one D fuel) t1 = .error err
      rw [List.foldlM_cons, hstep]
      rfl
    simp [restore, h, JSON_parse, truthy, hfold]
  · unfold expanded_key at h
    obtain ⟨t1, h1, s1⟩ := restore_missing D rk fuel hfuel pre p.rows ha
      (fun b hb => hrest b (List.mem_append_left _ hb))
    have ha1 : Acyclic rk t1 := skel_acyclic (sameButHidden_skel s1) ha
    obtain ⟨t2, _, s2, hstep⟩ := restore_one_missing D rk fuel hfuel t1 a (.element links) ha1
      (ids_sameButHidden s1 hna) hD (fun _ h => by cases h)
    have hsk3 : Skel (fun _ => true) t2 (modifyAt markExpanded links t2) :=
      skel_modifyAt (fun _ => true) markExpanded (fun _ => ⟨rfl, rfl, rfl⟩) _ _
    have ha3 : Acyclic rk (modifyAt markExpanded links t2) :=
      skel_acyclic hsk3 (skel_acyclic (sameButHidden_skel s2) ha1)
    obtain ⟨t4, h4, s4⟩ := restore_missing D rk fuel hfuel post
      (modifyAt markExpanded links t2) ha3
      (fun b hb => ⟨ids_modifyAt markExpanded (fun _ => rfl) links
          (ids_sameButHidden s2 (ids_sameButHidden s1
            (hrest b (List.mem_append_right _ hb)).1)),
        (hrest b (List.mem_append_right _ hb)).2⟩)
    have hfold : (pre ++ a :: post).foldlM (restore_one D fuel) p.rows = .ok t4 := by
      rw [List.foldlM_append, h1]
      show (a :: post).foldlM (restore_one D fuel) t1 = .ok t4
      rw [List.foldlM_cons, hstep]
      exact h4
    refine ⟨{ p with rows := t4 }, by simp [restore, h, JSON_parse, truthy, hfold], rfl, ?_,
      fun i r hr => ?_⟩
    · show t4.length = p.rows.length
      rw [s4.1, length_modifyAt, s2.1, s1.1]
    · obtain ⟨r1, hr1, e1⟩ := s1.2 i r hr
      obtain ⟨r2, hr2, e2⟩ := s2.2 i r1 hr1
      have hr3 : (modifyAt markExpanded links t2)[i]? =
          some (if i ∈ links then markExpanded r2 else r2) := by
        rw [getElem?_modifyAt, hr2]
        rfl
      obtain ⟨r4, hr4, e4⟩ := s4.2 i _ hr3
      refine ⟨r4, hr4, ?_⟩
      rw [e4, e2, e1]
      by_cases hin : i ∈ links <;> simp [hin, markExpanded]

/-- Witness of C10 as amended, on the first page load of the chain in a
document whose table element has the id `result_list`: with the ids `x1`, `x2`
of no element stored the restoration completes and changes no marker; with
the empty string stored it raises; with `result_list` stored it completes and
every row has the expanded marker. -/
theorem restore_spec_witness :
    (∃ p', restore (adminDocument 4) 4 "7" (storedPage (.json (.array ["x1", "x2"]))) = .ok p' ∧
      p'.session = (storedPage (.json (.array ["x1", "x2"]))).session ∧
      SameButHidden (storedPage (.json (.array ["x1", "x2"]))).rows p'.rows) ∧
    restore (adminDocument 4) 4 "7" (storedPage (.json (.array ["x1", ""]))) =
      .error .selectorError ∧
    (∃ p', restore (adminDocument 4) 4 "7" (storedPage (.json (.array ["result_list"]))) =
        .ok p' ∧
      p'.rows.map (fun r => (r.expanded, r.collapsed)) =
        [(true, false), (true, false), (true, false), (true, false)]) := by
  refine ⟨?_, ?_, ?_⟩
  · exact (restore_spec (adminDocument 4) chainRank 4 "7"
      (storedPage (.json (.array ["x1", "x2"])))
      (by unfold Acyclic; decide) (by decide)).2.2.2.2.1 ["x1", "x2"] rfl
      (fun a h => by
        simp only [List.mem_cons, List.mem_singleton, List.not_mem_nil, or_false] at h
        rcases h with rfl | rfl <;> exact ⟨by decide, rfl⟩)
  · exact (restore_spec (adminDocument 4) chainRank 4 "7"
      (storedPage (.json (.array ["x1", ""])))
      (by unfold Acyclic; decide) (by decide)).2.2.2.2.2.1 ["x1"] "" [] .selectorError rfl
      (fun b h => by
        simp only [List.mem_singleton] at h
        subst h
        exact ⟨by decide, rfl⟩)
      (by decide) rfl
  · obtain ⟨p', h, _, hlen, hrows⟩ := (restore_spec (adminDocument 4) chainRank 4 "7"
      (storedPage (.json (.array ["result_list"])))
      (by unfold Acyclic; decide) (by decide)).2.2.2.2.2.2 [] "result_list" [] [0, 1, 2, 3] rfl
      (fun b h => by simp at h) (by decide) rfl
    refine ⟨p', h, ?_⟩
    have h' : restore (adminDocument 4) 4 "7" (storedPage (.json (.array ["result_list"]))) =
        .ok { rows := chainTable.map fun r => { markExpanded r with hidden := r.hidden },
              session := (storedPage (.json (.array ["result_list"]))).session } := by
      rfl
    rw [h'] at h
    cases h
    decide

/-! ## The two branches of `toggle()` -/

theorem foldl_filter_ids (t : Table) (cs : List Nat) (S : List String) :
    cs.foldl (fun (acc : List String) (c : Nat) =>
        acc.filter fun elementId => elementId != elem_id t c) S =
      S.filter fun x => decide (∀ c ∈ cs, x ≠ elem_id t c) := by
  induction cs generalizing S with
  | nil => simp
  | cons c cs ih =>
    simp only [List.foldl_cons, ih, List.filter_filter]
    apply List.filter_congr
    intro x _
    simp only [List.mem_cons, forall_eq_or_imp, Bool.decide_and, bne_iff_ne, ne_eq,
      decide_not, Bool.and_comm]
    cases h : (x == elem_id t c) <;> simp_all

theorem elem_id_sameButHidden {t t' : Table} (h : SameButHidden t t') (e : Nat) :
    elem_id t' e = elem_id t e := by
  unfold elem_id
  cases hr : t[e]? with
  | none =>
    have : t'[e]? = none := by
      rw [List.getElem?_eq_none_iff] at hr ⊢
      rw [h.1]; exact hr
    rw [this]
  | some r =>
    obtain ⟨r', h1, e1⟩ := h.2 e r hr
    rw [h1, e1]

theorem elem_id_modifyAt (f : Row → Row) (hf : ∀ r, (f r).id = r.id) (is : List Nat)
    (t : Table) (e : Nat) : elem_id (modifyAt f is t) e = elem_id t e := by
  unfold elem_id
  rw [getElem?_modifyAt]
  cases t[e]? with
  | none => rfl
  | some r => by_cases h : e ∈ is <;> simp [h, hf]

/-- The expand branch of `toggle()`: on a table without cycles, for a row
whose link has the `collapsed` class and a stored list `S`, the call returns,
the row's marker is expanded and the list stored is `S` with the row's id
appended. -/
theorem toggle_expand_branch (rk : String → Nat) (fuel : Nat) (key : String) (p : Page)
    (n : Node) (r : Row) (S : List String)
    (ha : Acyclic rk p.rows) (hfuel : rk n.node_id < fuel)
    (hr : p.rows[n.elem]? = some r) (hc : r.collapsed = true)
    (hS : get_expanded p.session key = .ok S) :
    ∃ p', toggle fuel key p n = .ok p' ∧
      (∃ r', p'.rows[n.elem]? = some r' ∧ MarkedExpanded r') ∧
      get_expanded p'.session key = .ok (S ++ [r.id]) := by
  obtain ⟨t1, h1, s1⟩ := expand_sameButHidden rk fuel p.rows n.node_id ha hfuel
  obtain ⟨r1, hr1, _⟩ := s1.2 n.elem r hr
  have hid : elem_id (modifyAt markExpanded [n.elem] t1) n.elem = r.id := by
    rw [elem_id_modifyAt markExpanded (fun _ => rfl), elem_id_sameButHidden s1]
    simp [elem_id, hr]
  refine ⟨{ rows := modifyAt markExpanded [n.elem] t1,
            session := setItem p.session key (S ++ [r.id]) }, ?_, ?_, ?_⟩
  · simp [toggle, is_collapsed, hr, hc, h1, add_to_session, hS, hid]
  · refine ⟨markExpanded r1, ?_, rfl, rfl⟩
    show (modifyAt markExpanded [n.elem] t1)[n.elem]? = some (markExpanded r1)
    rw [getElem?_modifyAt, hr1]; simp
  · simp [get_expanded, setItem, JSON_parse, truthy]

/-- The collapse branch of `toggle()`: on a table without cycles, for a row
whose link lacks the `collapsed` class and a stored list `S`, the call
returns, the row's marker is collapsed and the list stored is `S` without the
row's id and, when the rendered child count is positive, without the id of
any direct child; deeper descendants are not looked at. -/
theorem toggle_collapse_branch (rk : String → Nat) (fuel : Nat) (key : String) (p : Page)
    (n : Node) (r : Row) (S : List String)
    (ha : Acyclic rk p.rows) (hfuel : rk n.node_id < fuel)
    (hr : p.rows[n.elem]? = some r) (hc : r.collapsed = false)
    (hS : get_expanded p.session key = .ok S) :
    ∃ p', toggle fuel key p n = .ok p' ∧
      (∃ r', p'.rows[n.elem]? = some r' ∧ MarkedCollapsed r') ∧
      get_expanded p'.session key = .ok (S.filter fun x =>
        decide (x ≠ r.id ∧ (0 < n.children_num →
          ∀ c ∈ children p.rows n.node_id, x ≠ elem_id p.rows c))) := by
  obtain ⟨t1, h1, s1⟩ := walk_spec (fun _ => true) (fun r => { r with hidden := true })
    (fun _ => ⟨rfl, rfl, rfl⟩) (fun _ => rfl) rk fuel p.rows n.node_id ha hfuel
  rw [← collapse_eq_walk] at h1
  have hsb : SameButHidden p.rows t1 := by
    refine ⟨s1.1, fun i r hr => ?_⟩
    by_cases hv : Reach (fun _ => true) p.rows n.node_id i
    · exact ⟨_, (s1.2 i r hr).1 hv, rfl⟩
    · exact ⟨r, (s1.2 i r hr).2 hv, rfl⟩
  obtain ⟨r1, hr1, _⟩ := hsb.2 n.elem r hr
  have hsk : Skel (fun _ => true) p.rows (modifyAt markCollapsed [n.elem] t1) :=
    skel_trans (sameButHidden_skel hsb)
      (skel_modifyAt (fun _ => true) markCollapsed (fun _ => ⟨rfl, rfl, rfl⟩) _ _)
  have hid : ∀ e, elem_id (modifyAt markCollapsed [n.elem] t1) e = elem_id p.rows e := by
    intro e
    rw [elem_id_modifyAt markCollapsed (fun _ => rfl), elem_id_sameButHidden hsb]
  have hrid : elem_id p.rows n.elem = r.id := by simp [elem_id, hr]
  refine ⟨{ rows := modifyAt markCollapsed [n.elem] t1,
            session := setItem p.session key (S.filter fun x =>
              decide (x ≠ r.id ∧ (0 < n.children_num →
                ∀ c ∈ children p.rows n.node_id, x ≠ elem_id p.rows c))) }, ?_, ?_, ?_⟩
  · simp only [toggle, is_collapsed, hr, hc, h1, remove_from_session, hS, foldl_filter_ids,
      skel_children hsk, has_children, Bool.false_eq_true, if_false]
    congr 3
    simp only [hid, hrid]
    by_cases hcn : 0 < n.children_num
    · simp only [hcn, decide_True, if_true, List.filter_filter, true_implies]
      refine congrArg (setItem p.session key) ?_
      apply List.filter_congr
      intro x _
      by_cases hx : x = r.id <;> simp [hx]
    · simp only [hcn, decide_False, Bool.false_eq_true, if_false, false_implies, and_true]
      refine congrArg (setItem p.session key) ?_
      apply List.filter_congr
      intro x _
      by_cases hx : x = r.id <;> simp [hx]
  · refine ⟨markCollapsed r1, ?_, rfl, rfl⟩
    show (modifyAt markCollapsed [n.elem] t1)[n.elem]? = some (markCollapsed r1)
    rw [getElem?_modifyAt, hr1]; simp
  · simp [get_expanded, setItem, JSON_parse, truthy]

/-! ## Restoration of stored ids (C11) -/

theorem grown_refl (t : Table) : Grown t t :=
  ⟨rfl, fun _ r h => ⟨r, h, rfl, rfl, rfl, id, id⟩⟩

theorem grown_trans {t t' t'' : Table} (h : Grown t t') (h' : Grown t' t'') : Grown t t'' := by
  refine ⟨h'.1.trans h.1, fun i r hr => ?_⟩
  obtain ⟨r1, h1, a1, b1, c1, d1, e1⟩ := h.2 i r hr
  obtain ⟨r2, h2, a2, b2, c2, d2, e2⟩ := h'.2 i r1 h1
  exact ⟨r2, h2, a2.trans a1, b2.trans b1, c2.trans c1, fun m => d2 (d1 m), fun v => e2 (e1 v)⟩

theorem grown_skel {t t' : Table} (h : Grown t t') : Skel (fun _ => true) t t' :=
  ⟨h.1, fun i r hr => by
    obtain ⟨r', h1, _, b, c, _, _⟩ := h.2 i r hr
    exact ⟨r', h1, b, c, rfl⟩⟩

theorem grown_ids {t t' : Table} (h : Grown t t') :
    t'.map (fun r => r.id) = t.map (fun r => r.id) := by
  apply List.ext_getElem?
  intro i
  rw [List.getElem?_map, List.getElem?_map]
  cases hr : t[i]? with
  | none =>
    have : t'[i]? = none := by
      rw [List.getElem?_eq_none_iff] at hr ⊢
      rw [h.1]; exact hr
    rw [this]
  | some r =>
    obtain ⟨r', h1, a, _⟩ := h.2 i r hr
    rw [h1]
    simp [a]

theorem grown_fuel {t t' : Table} (h : Grown t t') {rk : String → Nat} {fuel : Nat}
    (hf : ∀ r ∈ t, rk r.node < fuel) : ∀ r ∈ t', rk r.node < fuel := by
  intro r' hr'
  obtain ⟨i, hi⟩ := List.mem_iff_getElem?.1 hr'
  have hlt : i < t.length := by
    have := (List.getElem?_eq_some.1 hi).1
    rw [h.1] at this; exact this
  obtain ⟨r1, h1, _, b, _⟩ := h.2 i t[i] (List.getElem?_eq_getElem hlt)
  rw [hi] at h1; cases h1
  rw [b]
  exact hf _ (List.getElem_mem hlt)

theorem row_with_id_map (t : Table) (a : String) :
    row_with_id t a = List.findIdx? (fun s => s == a) (t.map fun r => r.id) := by
  rw [List.findIdx?_map]
  rfl

theorem row_with_id_grown {t t' : Table} (h : Grown t t') (a : String) :
    row_with_id t' a = row_with_id t a := by
  rw [row_with_id_map, row_with_id_map, grown_ids h]

theorem row_with_id_of_nodup {t : Table} (hn : (t.map fun r => r.id).Nodup) {i : Nat} {r : Row}
    (hr : t[i]? = some r) : row_with_id t r.id = some i := by
  obtain ⟨hi, hri⟩ := List.getElem?_eq_some.1 hr
  unfold row_with_id
  rw [List.findIdx?_eq_some_iff_getElem]
  refine ⟨hi, by simp [hri], fun j hji => ?_⟩
  have hj : j < t.length := Nat.lt_trans hji hi
  intro hp
  have heq : t[j].id = r.id := by simpa using hp
  have hne := List.nodup_iff_getElem?_ne_getElem?.1 hn j i hji (by simpa using hi)
  apply hne
  rw [List.getElem?_map, List.getElem?_map, hr, List.getElem?_eq_getElem hj]
  simp [heq]

theorem restore_one_found (D : Document) (rk : String → Nat) (fuel : Nat) (t : Table)
    (a : String) (e : Nat) (r : Row) (ha : Acyclic rk t) (hfuel : ∀ r ∈ t, rk r.node < fuel)
    (hfind : row_with_id t a = some e) (hr : t[e]? = some r) :
    ∃ t2, restore_one D fuel t a = .ok t2 ∧ Grown t t2 ∧
      (∃ r', t2[e]? = some r' ∧ MarkedExpanded r') ∧
      ∀ c ∈ children t r.node, ∃ rc, t2[c]? = some rc ∧ rc.hidden = false := by
  obtain ⟨t1, h1, s1⟩ := walk_spec (fun r => r.expanded) (fun r => { r with hidden := false })
    (fun _ => ⟨rfl, rfl, rfl⟩) (fun _ => rfl) rk fuel t r.node ha
    (hfuel r (List.getElem?_mem hr))
  rw [← expand_eq_walk] at h1
  have hrow : ∀ (i : Nat) (x : Row), t[i]? = some x →
      ∃ x1, t1[i]? = some x1 ∧ x1 = { x with hidden := x1.hidden } ∧
        (x.hidden = false → x1.hidden = false) := by
    intro i x hx
    by_cases hv : Reach (fun r => r.expanded) t r.node i
    · exact ⟨_, (s1.2 i x hx).1 hv, rfl, fun _ => rfl⟩
    · exact ⟨x, (s1.2 i x hx).2 hv, rfl, id⟩
  refine ⟨modifyAt markExpanded [e] t1, ?_, ?_, ?_, ?_⟩
  · simp only [restore_one, find_by_id, hfind, found_node_id, found_links, hr, h1]
  · refine ⟨(length_modifyAt _ _ _).trans s1.1, fun i x hx => ?_⟩
    obtain ⟨x1, hx1, e1, v1⟩ := hrow i x hx
    rw [getElem?_modifyAt, hx1]
    by_cases hi : i = e
    · refine ⟨markExpanded x1, by simp [hi], ?_, ?_, ?_, fun _ => ⟨rfl, rfl⟩, v1⟩
      · show x1.id = x.id
        rw [e1]
      · show x1.node = x.node
        rw [e1]
      · show x1.parent = x.parent
        rw [e1]
    · refine ⟨x1, by simp [hi], by rw [e1], by rw [e1], by rw [e1], ?_, v1⟩
      intro hm
      rw [e1]
      exact hm
  · obtain ⟨x1, hx1, _, _⟩ := hrow e r hr
    refine ⟨markExpanded x1, ?_, rfl, rfl⟩
    rw [getElem?_modifyAt, hx1]; simp
  · intro c hc
    obtain ⟨rc, hrc, hp⟩ := mem_children.1 hc
    have hc1 := (s1.2 c rc hrc).1 (Reach.child hrc hp)
    rw [getElem?_modifyAt, hc1]
    by_cases hi : c = e
    · exact ⟨markExpanded { rc with hidden := false }, by simp [hi], rfl⟩
    · exact ⟨{ rc with hidden := false }, by simp [hi], rfl⟩

theorem restore_fold (D : Document) (rk : String → Nat) (fuel : Nat) (t0 : Table) :
    ∀ (ids : List String) (t : Table), Grown t0 t → Acyclic rk t0 →
      (∀ r ∈ t0, rk r.node < fuel) → (∀ a ∈ ids, ∃ r ∈ t0, r.id = a) →
      ∃ t', ids.foldlM (restore_one D fuel) t = .ok t' ∧ Grown t t' ∧
        ∀ (i : Nat) (r : Row), t0[i]? = some r → row_with_id t0 r.id = some i → r.id ∈ ids →
          (∃ r', t'[i]? = some r' ∧ MarkedExpanded r') ∧
          ∀ c ∈ children t0 r.node, ∃ rc, t'[c]? = some rc ∧ rc.hidden = false := by
  intro ids
  induction ids with
  | nil =>
    intro t _ _ _ _
    exact ⟨t, rfl, grown_refl t, fun i r _ _ hin => by simp at hin⟩
  | cons a ids ih =>
    intro t hg ha hfuel hex
    obtain ⟨ra, hra, hida⟩ := hex a (List.mem_cons_self _ _)
    have hsome : ∃ e', row_with_id t0 a = some e' := by
      cases hf : row_with_id t0 a with
      | some e' => exact ⟨e', rfl⟩
      | none =>
        unfold row_with_id at hf
        rw [List.findIdx?_eq_none_iff] at hf
        have := hf ra hra
        simp [hida] at this
    obtain ⟨e', hfind0⟩ := hsome
    have hlt : e' < t0.length := by
      unfold row_with_id at hfind0
      exact (List.findIdx?_eq_some_iff_getElem.1 hfind0).1
    obtain ⟨r1, hr1, _, hn1, _, _, _⟩ := hg.2 e' t0[e'] (List.getElem?_eq_getElem hlt)
    have hfind : row_with_id t a = some e' := by rw [row_with_id_grown hg]; exact hfind0
    obtain ⟨t2, hstep, hg2, hmark, hshown⟩ := restore_one_found D rk fuel t a e' r1
      (skel_acyclic (grown_skel hg) ha) (grown_fuel hg hfuel) hfind hr1
    obtain ⟨t', hfold, hg', hall⟩ := ih t2 (grown_trans hg hg2) ha hfuel
      (fun b hb => hex b (List.mem_cons_of_mem _ hb))
    refine ⟨t', ?_, grown_trans hg2 hg', fun i r hr hfi hin => ?_⟩
    · simp only [List.foldlM_cons, hstep]
      exact hfold
    · rcases List.mem_cons.1 hin with heq | hin'
      · have hie : e' = i := by
          rw [← heq, hfi] at hfind0
          exact (Option.some.inj hfind0).symm
        subst hie
        have hrr : t0[e'] = r := by
          have := List.getElem?_eq_getElem hlt
          rw [hr] at this
          exact (Option.some.inj this).symm
        constructor
        · obtain ⟨x, hx, hm⟩ := hmark
          obtain ⟨x', hx', _, _, _, hm', _⟩ := hg'.2 e' x hx
          exact ⟨x', hx', hm' hm⟩
        · intro c hc
          have hc' : c ∈ children t r1.node := by
            rw [skel_children (grown_skel hg), hn1, hrr]
            exact hc
          obtain ⟨rc, hrc, hv⟩ := hshown c hc'
          obtain ⟨rc', hrc', _, _, _, _, hv'⟩ := hg'.2 c rc hrc
          exact ⟨rc', hrc', hv' hv⟩
      · exact hall i r hr hfi hin'

theorem toggle_expand_rows (rk : String → Nat) (fuel : Nat) (key : String) (p : Page)
    (n : Node) (r : Row) (S : List String)
    (ha : Acyclic rk p.rows) (hfuel : rk n.node_id < fuel)
    (hr : p.rows[n.elem]? = some r) (hc : r.collapsed = true)
    (hS : get_expanded p.session key = .ok S) :
    ∃ p', toggle fuel key p n = .ok p' ∧
      get_expanded p'.session key = .ok (S ++ [r.id]) ∧
      p'.rows.map (fun x => x.id) = p.rows.map (fun x => x.id) := by
  obtain ⟨t1, h1, s1⟩ := expand_sameButHidden rk fuel p.rows n.node_id ha hfuel
  have hid : elem_id (modifyAt markExpanded [n.elem] t1) n.elem = r.id := by
    rw [elem_id_modifyAt markExpanded (fun _ => rfl), elem_id_sameButHidden s1]
    simp [elem_id, hr]
  refine ⟨{ rows := modifyAt markExpanded [n.elem] t1,
            session := setItem p.session key (S ++ [r.id]) }, ?_, ?_, ?_⟩
  · simp [toggle, is_collapsed, hr, hc, h1, add_to_session, hS, hid]
  · simp [get_expanded, setItem, JSON_parse, truthy]
  · apply List.ext_getElem?
    intro i
    show ((modifyAt markExpanded [n.elem] t1).map fun x => x.id)[i]? = _
    rw [List.getElem?_map, List.getElem?_map, getElem?_modifyAt]
    cases hx : p.rows[i]? with
    | none =>
      have : t1[i]? = none := by
        rw [List.getElem?_eq_none_iff] at hx ⊢
        rw [s1.1]; exact hx
      rw [this]; rfl
    | some x =>
      obtain ⟨x1, hx1, e1⟩ := s1.2 i x hx
      rw [hx1]
      by_cases hi : i = n.elem
      · simp only [Option.map_some', List.mem_singleton, hi, if_true]
        show some x1.id = some x.id
        rw [e1]
      · simp only [Option.map_some', List.mem_singleton, hi, if_false]
        rw [e1]

/-- C11: in any document, on a table without cycles whose rows have pairwise
distinct ids, with the list `L` of ids of existing rows stored for the tree,
the page-load restoration returns and leaves every row whose id is in `L` with
the expanded marker and all of its direct children shown; and `toggle()` on a
collapsed row R appends to the stored list the id of R, which is the id by
which the restoration finds the element of R. -/
theorem restore_expands_stored (D : Document) (rk : String → Nat) (fuel : Nat)
    (menu_content_id : String) (p : Page) (L : List String)
    (ha : Acyclic rk p.rows) (hfuel : ∀ r ∈ p.rows, rk r.node < fuel)
    (hnodup : (p.rows.map fun r => r.id).Nodup)
    (hL : p.session (expanded_key menu_content_id) = some (.json (.array L)))
    (hex : ∀ a ∈ L, ∃ r ∈ p.rows, r.id = a) :
    (∃ p', restore D fuel menu_content_id p = .ok p' ∧
      ∀ (i : Nat) (r : Row), p.rows[i]? = some r → r.id ∈ L →
        (∃ r', p'.rows[i]? = some r' ∧ MarkedExpanded r') ∧
        ∀ c ∈ children p.rows r.node, ∃ rc, p'.rows[c]? = some rc ∧ rc.hidden = false) ∧
    (∀ (e : Nat) (n : Node) (R : Row), Node.new p.rows e = some n → p.rows[e]? = some R →
      R.collapsed = true →
      ∃ p1, toggle fuel (expanded_key menu_content_id) p n = .ok p1 ∧
        get_expanded p1.session (expanded_key menu_content_id) = .ok (L ++ [R.id]) ∧
        find_by_id D p1.rows R.id = .ok (.row e)) := by
  constructor
  · obtain ⟨t', hfold, _, hall⟩ := restore_fold D rk fuel p.rows L p.rows (grown_refl _) ha hfuel hex
    have hL' : p.session (EXPANDED_SESSION_KEY ++ menu_content_id) = some (.json (.array L)) := hL
    refine ⟨{ p with rows := t' }, ?_, fun i r hr hin => ?_⟩
    · simp [restore, hL', JSON_parse, truthy, hfold]
    · exact hall i r hr (row_with_id_of_nodup hnodup hr) hin
  · intro e n R hn hR hc
    obtain ⟨r0, hr0, rfl⟩ := node_new_eq hn
    rw [hR] at hr0; cases hr0
    have hS : get_expanded p.session (expanded_key menu_content_id) = .ok L := by
      simp [get_expanded, hL, JSON_parse, truthy]
    obtain ⟨p1, h1, h2, h3⟩ := toggle_expand_rows rk fuel (expanded_key menu_content_id) p
      ⟨e, R.node, R.parent, R.level, R.children_num⟩ R L ha
      (hfuel R (List.getElem?_mem hR)) hR hc hS
    refine ⟨p1, h1, h2, ?_⟩
    have hrow : row_with_id p1.rows R.id = some e := by
      rw [row_with_id_map, h3, ← row_with_id_map]
      exact row_with_id_of_nodup hnodup hR
    simp only [find_by_id, hrow]

/-- Witness of C11: `restoreTable` loaded with `['n2','n5']` stored leaves
`n2` and `n5` with the expanded marker and their children `n5`, `n7` and `n8`
shown. -/
theorem restore_expands_stored_witness :
    ∃ p', restore (adminDocument 4) 4 "7" restorePage = .ok p' ∧
      (∃ r', p'.rows[0]? = some r' ∧ MarkedExpanded r') ∧
      (∃ r', p'.rows[1]? = some r' ∧ MarkedExpanded r') ∧
      (∃ rc, p'.rows[1]? = some rc ∧ rc.hidden = false) ∧
      (∃ rc, p'.rows[2]? = some rc ∧ rc.hidden = false) ∧
      (∃ rc, p'.rows[3]? = some rc ∧ rc.hidden = false) := by
  obtain ⟨p', h, hall⟩ :=
    (restore_expands_stored (adminDocument 4) restoreRank 4 "7" restorePage ["n2", "n5"]
      (by unfold Acyclic; decide) (by decide) (by decide) rfl (by decide)).1
  exact ⟨p', h, (hall 0 (mkRow "n2" "" 1 2) rfl (by decide)).1,
    (hall 1 { mkRow "n5" "n2" 2 1 with hidden := true } rfl (by decide)).1,
    (hall 0 (mkRow "n2" "" 1 2) rfl (by decide)).2 1 (by decide),
    (hall 0 (mkRow "n2" "" 1 2) rfl (by decide)).2 2 (by decide),
    (hall 1 { mkRow "n5" "n2" 2 1 with hidden := true } rfl (by decide)).2 3 (by decide)⟩

/-- The page load of the scenario in full: markers and visibility of the four
rows after the restoration. -/
theorem restore_scenario :
    ∃ p', restore (adminDocument 4) 4 "7" restorePage = .ok p' ∧
      p'.rows.map (fun r => (r.id, r.expanded, r.collapsed, r.hidden)) =
        [("n2", true, false, false), ("n5", true, false, false),
         ("n7", false, true, false), ("n8", false, true, false)] := by
  refine ⟨_, rfl, ?_⟩
  decide

/-! ## What a drag leaves behind (C12) -/

/-- C12 fails as stated: `n4` is dragged with the pointer moved to 135, over
the bottom half of the collapsed row `n2`, and the prompt is declined; no
request is sent, and the row `n3`, hidden when the drag started, is shown
after the abort while `n2` still carries the collapsed marker. -/
theorem drag_abort_counterexample :
    ∃ ui', drag_session exactArith 4 stackLayout nestedUI 3 [135] false = some (ui', none) ∧
      nestedUI.rows[2]?.map (fun r => r.hidden) = some true ∧
      ui'.rows[2]?.map (fun r => r.hidden) = some false ∧
      ui'.rows[1]?.map (fun r => r.collapsed) = some true := by
  have hdown : mousedown nestedUI 3 =
      some ({ rows := nestedDragging, body := ⟨1, 1, 1, 1⟩, ghost := true, drag_line := true },
            dragN4) := by decide
  have hexp : expand 4 nestedDragging "n2" = some nestedRevealed := by decide
  have hmove : mousemove exactArith 4 stackLayout 135 nestedDragging dragN4 =
      some (nestedRevealed, { dragN4 with targetRow := some 1, as_child := true }) := by
    have ht0 : stackLayout.top nestedDragging 0 = 100 := by
      norm_num [stackLayout, nestedDragging, mkRow]
    have ht1 : stackLayout.top nestedDragging 1 = 120 := by
      norm_num [stackLayout, nestedDragging, mkRow]
    have ht3 : stackLayout.top nestedDragging 3 = 140 := by
      norm_num [stackLayout, nestedDragging, mkRow]
    have hu2 : stackLayout.top nestedRevealed 2 = 140 := by
      norm_num [stackLayout, nestedRevealed, mkRow]
    have hu3 : stackLayout.top nestedRevealed 3 = 160 := by
      norm_num [stackLayout, nestedRevealed, mkRow]
    have hsrc : over_same_node exactArith stackLayout nestedDragging 20 135 dragN4.node
        = false := by
      rw [exact_same_node]
      show decide (stackLayout.top nestedDragging 3 ≤ 135 ∧
        135 ≤ stackLayout.top nestedDragging 3 + 20) = false
      rw [ht3]; norm_num
    have hnode : Node.new nestedDragging 1 = some ⟨1, "n2", "n1", 2, 1⟩ := by decide
    have hcol : is_collapsed nestedDragging ⟨1, "n2", "n1", 2, 1⟩ = true := by decide
    refine mousemove_last exactArith 4 stackLayout 135 nestedDragging dragN4 1
      (nestedDragging, none, false) (nestedRevealed, some 1, true) (by decide) ?_ ?_ ?_ ?_
    · have h0 : mousemove_row exactArith 4 stackLayout 135 20 dragN4.node
          (nestedDragging, none, false) 0 = some (nestedDragging, none, false) :=
        mousemove_row_skip exactArith 4 stackLayout 135 20 dragN4.node _ 0 hsrc
          (by rw [exact_top_half, ht0]; norm_num) (by rw [exact_bottom_half, ht0]; norm_num)
      show [0].foldlM (mousemove_row exactArith 4 stackLayout 135 20 dragN4.node)
        (nestedDragging, none, false) = some (nestedDragging, none, false)
      simp only [List.foldlM_cons, List.foldlM_nil, h0, Option.bind_eq_bind,
        Option.some_bind, Option.pure_def]
    · have b : over_top_half exactArith stackLayout nestedDragging 20 135 1 = false := by
        rw [exact_top_half, ht1]; norm_num
      have c : over_bottom_half exactArith stackLayout nestedDragging 20 135 1 = true := by
        rw [exact_bottom_half, ht1]; norm_num
      show mousemove_row exactArith 4 stackLayout 135 20 dragN4.node
        (nestedDragging, none, false) 1 = some (nestedRevealed, some 1, true)
      simp [mousemove_row, hsrc, b, c, hnode, hcol, hexp]
    · rw [exact_same_node]
      show decide (stackLayout.top nestedRevealed 3 ≤ 135 ∧
        135 ≤ stackLayout.top nestedRevealed 3 + 20) = false
      rw [hu3]; norm_num
    · intro j hij hj
      have hj' : j < 4 := hj
      interval_cases j
      · exact ⟨by rw [exact_top_half, hu2]; norm_num [stackLayout],
               by rw [exact_bottom_half, hu2]; norm_num [stackLayout]⟩
      · exact ⟨by rw [exact_top_half, hu3]; norm_num [stackLayout],
               by rw [exact_bottom_half, hu3]; norm_num [stackLayout]⟩
  refine ⟨stop_drag { rows := nestedRevealed, body := ⟨1, 1, 1, 1⟩, ghost := true,
                      drag_line := true } dragN4.node, ?_, by decide, ?_, ?_⟩
  · simp only [drag_session, hdown, drag_moves, hmove, mouseup, mouseup_request]
    rfl
  · decide
  · decide

/-- C12 (as amended): on a table without cycles, a drag session with any
sequence of pointer moves returns, sends no request when the prompt is
declined, and after the release every row is at the position it had when the
drag started, with every attribute and its marker as they were, only its
visibility and inline background possibly changed; a row that was shown is
still shown, and a row that was hidden may be shown, the children revealed by
a pointer move over the bottom half of a collapsed row not being hidden
again. -/
theorem drag_session_frame {F : Type} (A : Arith F) (rk : String → Nat) (fuel : Nat)
    (L : Layout F) (ui : UI) (e : Nat) (r0 : Row) (moves : List F) (confirmMove : Bool)
    (ha : Acyclic rk ui.rows) (hfuel : ∀ r ∈ ui.rows, rk r.node < fuel)
    (he : ui.rows[e]? = some r0) :
    ∃ ui' req, drag_session A fuel L ui e moves confirmMove = some (ui', req) ∧
      (confirmMove = false → req = none) ∧
      ui'.rows.length = ui.rows.length ∧
      ∀ (i : Nat) (r : Row), ui.rows[i]? = some r →
        ∃ r', ui'.rows[i]? = some r' ∧
          r' = { r with hidden := r'.hidden, background := r'.background } ∧
          (r.hidden = false → r'.hidden = false) := by
  cases hmd : mousedown ui e with
  | none => simp [mousedown, Node.new, he] at hmd
  | some q =>
    obtain ⟨ui1, d0⟩ := q
    have hrows : ui1.rows =
        modifyAt (fun r => { r with background := some ACTIVE_NODE_BG_COLOR }) [e] ui.rows := by
      simp only [mousedown, Node.new, he, Option.some.injEq, Prod.mk.injEq] at hmd
      rw [← hmd.1]
    have hk1 : DragKept ui.rows ui1.rows := by
      rw [hrows]
      exact dragKept_modifyAt (fun r => { r with background := some ACTIVE_NODE_BG_COLOR })
        (fun _ => rfl) (fun _ h => h) _ _
    obtain ⟨t, d1, hmoves, hk2, _⟩ := drag_moves_kept A rk fuel L ui1.rows
      (skel_acyclic (dragKept_skel hk1) ha) (dragKept_fuel hk1 hfuel) moves ui1.rows d0
      (dragKept_refl _)
    have hk3 : DragKept t (stop_drag { ui1 with rows := t } d1.node).rows :=
      dragKept_modifyAt (fun r => { r with hidden := false, background := none })
        (fun _ => rfl) (fun _ _ => rfl) _ _
    have hk := dragKept_trans hk1 (dragKept_trans hk2 hk3)
    refine ⟨stop_drag { ui1 with rows := t } d1.node, mouseup_request t d1 confirmMove,
      ?_, ?_, hk.1, hk.2⟩
    · simp only [drag_session, hmd, hmoves, mouseup]
    · intro hc
      subst hc
      simp only [mouseup_request]
      cases d1.targetRow <;> simp

/-- Witness of C12 as amended: the drag of `n4` over the collapsed row `n2`,
the prompt declined. -/
theorem drag_session_frame_witness :
    ∃ ui' req, drag_session exactArith 4 stackLayout nestedUI 3 [135] false = some (ui', req) ∧
      (false = false → req = none) ∧
      ui'.rows.length = nestedUI.rows.length ∧
      ∀ (i : Nat) (r : Row), nestedUI.rows[i]? = some r →
        ∃ r', ui'.rows[i]? = some r' ∧
          r' = { r with hidden := r'.hidden, background := r'.background } ∧
          (r.hidden = false → r'.hidden = false) :=
  drag_session_frame exactArith chainRank 4 stackLayout nestedUI 3 (mkRow "n4" "n1" 2 0) [135] false
    (by unfold Acyclic; decide) (by decide) rfl

/-! ## The session storage after `expand_all()` and `collapse_all()` (C13) -/

/-- C13: on a table without cycles, `expand_all()` and `collapse_all()` on a
row return and leave the session storage empty: for every key, of the current
tree or of any other, no item is stored. -/
theorem expand_all_clears_storage (rk : String → Nat) (fuel : Nat) (p : Page) (e : Nat)
    (r : Row) (ha : Acyclic rk p.rows) (hr : p.rows[e]? = some r) (hfuel : rk r.node < fuel) :
    (∃ p1, expand_all fuel p e = some p1 ∧ ∀ key, p1.session key = none) ∧
    (∃ p1, collapse_all fuel p e = some p1 ∧ ∀ key, p1.session key = none) := by
  constructor
  · obtain ⟨p1, h1, _⟩ := walk_all_spec MarkedExpanded (fun r => r.hidden = false) markExpanded
      (fun r => { r with hidden := false }) (fun _ => ⟨rfl, rfl⟩) (fun _ => ⟨rfl, rfl⟩)
      (fun _ => ⟨rfl, rfl⟩) (fun _ h => h) (fun _ => rfl) (fun _ h => h) rk fuel p e r ha hr hfuel
    have hs := walk_all_session _ _ _ _ _ _ h1
    exact ⟨p1, by rw [expand_all_eq_walk_all]; exact h1, fun key => by rw [hs]⟩
  · obtain ⟨p1, h1, _⟩ := walk_all_spec MarkedCollapsed (fun r => r.hidden = true) markCollapsed
      (fun r => { r with hidden := true }) (fun _ => ⟨rfl, rfl⟩) (fun _ => ⟨rfl, rfl⟩)
      (fun _ => ⟨rfl, rfl⟩) (fun _ h => h) (fun _ => rfl) (fun _ h => h) rk fuel p e r ha hr hfuel
    have hs := walk_all_session _ _ _ _ _ _ h1
    exact ⟨p1, by rw [collapse_all_eq_walk_all]; exact h1, fun key => by rw [hs]⟩

/-- Witness of C13: with lists stored for the menus `7` and `8`,
`expand_all()` and `collapse_all()` on the root of the chain leave no item
under any key. -/
theorem expand_all_clears_storage_witness :
    get_expanded twoMenusPage.session (expanded_key "7") = .ok ["n1", "n2", "n3"] ∧
    get_expanded twoMenusPage.session (expanded_key "8") = .ok ["m1"] ∧
    (∃ p1, expand_all 4 twoMenusPage 0 = some p1 ∧ ∀ key, p1.session key = none) ∧
    (∃ p1, collapse_all 4 twoMenusPage 0 = some p1 ∧ ∀ key, p1.session key = none) :=
  ⟨rfl, rfl,
   expand_all_clears_storage chainRank 4 twoMenusPage 0 (markExpanded (mkRow "n1" "" 1 1))
     (by unfold Acyclic; decide) rfl (by decide)⟩

end NavTree
